import Mathlib

/-!
# CoinParty — verification of spec claims against the source

Shallow embedding of the parts of the CoinParty code base (a decentralized
Bitcoin mixing service) that the frozen claims C1..C10 are about:

* `shamir.py` — Shamir sharing, Lagrange recombination, Berlekamp–Welch;
* `JfDkgSmpcValue.py` — Joint-Feldman DKG (share creation, Feldman check,
  disqualification thresholds);
* `Transaction.py` — broadcast / eachcast / consistent-broadcast transactions;
* `SmpcValue.py` — promise registration and completion;
* `ShufflingProtocol.py` — checksum comparison of the shuffle chain;
* `CoinPartyProxy.py` — Bitcoin RPC error absorption.

Python `int` arithmetic is embedded over `ℤ`/`ℕ` (Python `%` and `//` agree
with Lean's `Int.emod`/`Int.ediv` for the positive moduli used throughout);
field arithmetic of `FieldElement` over a prime `order` is embedded as
`ZMod order`; Python exceptions become `Except PyError`.
-/

set_option maxHeartbeats 1000000

namespace CoinParty

/-- Python exceptions raised by the embedded code paths. -/
inductive PyError where
  | typeError (msg : String)
  | valueError (msg : String)
  | indexError (msg : String)
  | zeroDivisionError (msg : String)
  | runtimeError (msg : String)
  | thresholdError (msg : String)
  | complainError (msg : String) (ranks : List Nat)
  deriving Repr, DecidableEq

/-! ## `CoinPartyProxy.py` — `Proxy.sendrawtransaction` (claim C9)

`sendrawtransaction` forwards to the Bitcoin JSON-RPC `sendrawtransaction`
call.  The outcome of that external call is modelled as either a success
value or a `JSONRPCError` with an error code and message. -/

/-- Outcome of the underlying `self._call('sendrawtransaction', str(tx))`. -/
inductive RpcOutcome where
  | ok (value : String)
  | jsonRpcError (code : Int) (message : String)
  deriving Repr, DecidableEq

/-- `Proxy.sendrawtransaction` (CoinPartyProxy.py, lines 79-88): on success
return the call's value; on `JSONRPCError` re-raise as `IndexError` unless
the error code is `-25` (double submission), which is silently consumed
(the method then returns `None`). -/
def sendrawtransaction (tx : String) (call : RpcOutcome) : Except PyError (Option String) :=
  match call with
  | RpcOutcome.ok v => Except.ok (some v)
  | RpcOutcome.jsonRpcError code message =>
      if code ≠ -25 then
        Except.error (PyError.indexError
          ("Proxy.sendrawtransaction(): " ++ message ++ " (" ++ toString code ++ ")\nTransaction was:\n" ++ tx))
      else
        Except.ok none

/-! ## `SmpcValue.py` — secret-share promises (claim C8)

`getSecretShare` clones the secret-share deferred: when the share is not
yet resolved, a fresh deferred is appended to `_secret_share_dependents`;
`informDependentSecretDeferreds` then fires the queued deferreds by
repeatedly `pop()`-ing the dependent list and calling back with the share. -/

/-- Registration state of an `SmpcValue`'s secret-share promise: the resolved
share (if any) and the queued dependent deferreds, identified by `Nat` ids,
in registration order. -/
structure SmpcPromiseState where
  secretShare : Option Nat
  dependents : List Nat
  deriving Repr, DecidableEq

/-- `SmpcValue.getSecretShare` (SmpcValue.py, lines 65-71): if the share is
unresolved, append the consumer's fresh deferred to the dependent list
(it will fire later); otherwise fire it immediately.  Returns the new state
and whether the consumer's deferred fired immediately. -/
def getSecretShare (st : SmpcPromiseState) (d : Nat) : SmpcPromiseState × Bool :=
  match st.secretShare with
  | none => ({ st with dependents := st.dependents ++ [d] }, false)
  | some _ => (st, true)

/-- The `while`-loop of `SmpcValue.informDependentSecretDeferreds`
(SmpcValue.py, lines 73-77): while the dependent list is non-empty,
`pop()` a deferred (Python `list.pop()` removes the LAST element) and fire
its callback with the resolved share.  Returns the fired
`(deferred id, share)` events in firing order. -/
def informDependentSecretDeferreds (dependents : List Nat) (share : Nat) : List (Nat × Nat) :=
  if h : 0 < dependents.length then
    (dependents.getLast (List.length_pos.mp h), share) ::
      informDependentSecretDeferreds dependents.dropLast share
  else []
termination_by dependents.length
decreasing_by
  simpa [List.length_dropLast] using Nat.sub_lt h Nat.one_pos

/-! ## `Transaction.py` — broadcast and eachcast transactions (claim C6)

`EachcastTransaction.receivedResponse` begins with
`super(BroadcastTransaction, self).receivedResponse(response)`.  In Python 2
`super(C, self)` raises `TypeError` unless `isinstance(self, C)`; the class
hierarchy (`class BroadcastTransaction(Transaction)`,
`class EachcastTransaction(Transaction)`) is embedded so that this dynamic
check is part of the model. -/

/-- The transaction classes of `Transaction.py` that matter here. -/
inductive PyClass where
  | transaction
  | broadcastTransaction
  | eachcastTransaction
  deriving Repr, DecidableEq

/-- Direct superclass, per the `class C(B):` headers in Transaction.py:
`BroadcastTransaction` and `EachcastTransaction` both directly extend
`Transaction`. -/
def pyParent : PyClass → Option PyClass
  | PyClass.transaction => none
  | PyClass.broadcastTransaction => some PyClass.transaction
  | PyClass.eachcastTransaction => some PyClass.transaction

/-- The ancestors of a class (the class itself followed by the `pyParent`
chain). -/
def pyAncestors : PyClass → List PyClass
  | PyClass.transaction => [PyClass.transaction]
  | PyClass.broadcastTransaction => [PyClass.broadcastTransaction, PyClass.transaction]
  | PyClass.eachcastTransaction => [PyClass.eachcastTransaction, PyClass.transaction]

/-- `isinstance`-style subclass check (reflexive-transitive closure of
`pyParent`). -/
def pyIsSubclass (c target : PyClass) : Bool :=
  target ∈ pyAncestors c

/-- Python 2 `super(cls, self)`: raises `TypeError` unless the runtime class
of `self` is a subclass of `cls`; otherwise method lookup continues at the
parent of `cls`. -/
def pySuper (cls selfClass : PyClass) : Except PyError PyClass :=
  if pyIsSubclass selfClass cls then
    match pyParent cls with
    | some p => Except.ok p
    | none => Except.error (PyError.typeError "super(): no parent")
  else
    Except.error (PyError.typeError "super(type, obj): obj must be an instance or subtype of type")

/-- A response frame as seen by `receivedResponse`: the (optional) `rank`
field of the response dictionary. -/
structure Response where
  rank : Option Nat
  deriving Repr, DecidableEq

/-- Result dictionary returned by a result fetcher:
`{'is_positive': ..., 'value': ...}`. -/
structure FetchResult where
  is_positive : Bool
  value : Nat
  deriving Repr, DecidableEq

/-- Mutable state of a broadcast-style transaction: the ranks from which
responses are still expected, the current value/positivity, and whether the
internal deferred already fired. -/
structure TransState where
  expectedResponses : List Nat
  value : Option Nat
  isPositive : Bool
  called : Bool
  deriving Repr, DecidableEq

/-- `Transaction.receivedResponse` (Transaction.py, lines 100-112): when the
deferred has concluded, or there is no result fetcher, the result is `None`;
otherwise the result fetcher runs on the response.  Returns
`(rank, result)` where `rank` is the response's `rank` field (or `None`). -/
def transactionReceivedResponse (st : TransState) (fetcher : Option (Response → Option Nat → Bool → FetchResult))
    (resp : Response) : Option Nat × Option FetchResult :=
  let result : Option FetchResult :=
    if st.called then none
    else match fetcher with
         | none => none
         | some f => some (f resp st.value st.isPositive)
  (resp.rank, result)

/-- Shared body of `BroadcastTransaction.receivedResponse` (lines 170-184)
after the `super(...)` dispatch: ignore when result or rank is `None`;
raise `RuntimeError('peer_already_responded')` when the rank is not in the
expected list; otherwise delete the rank, record the result and fire the
deferred once the expected list is empty. -/
def broadcastResponseBody (st : TransState) (fetcher : Option (Response → Option Nat → Bool → FetchResult))
    (resp : Response) : Except PyError TransState :=
  let (rank?, result?) := transactionReceivedResponse st fetcher resp
  match rank?, result? with
  | none, _ => Except.ok st
  | _, none => Except.ok st
  | some rank, some result =>
      match st.expectedResponses.indexOf? rank with
      | none => Except.error (PyError.runtimeError "peer_already_responded")
      | some i =>
          let remaining := st.expectedResponses.eraseIdx i
          Except.ok { st with
            expectedResponses := remaining
            value := some result.value
            isPositive := result.is_positive
            called := st.called || remaining.isEmpty }

/-- `BroadcastTransaction.receivedResponse` (Transaction.py, lines 170-184):
`super(BroadcastTransaction, self)` with `self` a `BroadcastTransaction`
succeeds, then the broadcast body runs. -/
def broadcastReceivedResponse (st : TransState) (fetcher : Option (Response → Option Nat → Bool → FetchResult))
    (resp : Response) : Except PyError TransState := do
  let _ ← pySuper PyClass.broadcastTransaction PyClass.broadcastTransaction
  broadcastResponseBody st fetcher resp

/-- `EachcastTransaction.receivedResponse` (Transaction.py, lines 205-218):
the body is a verbatim copy of the broadcast one, but the first line is
`super(BroadcastTransaction, self).receivedResponse(response)` where `self`
is an `EachcastTransaction` — and `EachcastTransaction` extends
`Transaction`, not `BroadcastTransaction`. -/
def eachcastReceivedResponse (st : TransState) (fetcher : Option (Response → Option Nat → Bool → FetchResult))
    (resp : Response) : Except PyError TransState := do
  let _ ← pySuper PyClass.broadcastTransaction PyClass.eachcastTransaction
  broadcastResponseBody st fetcher resp

/-! ## `JfDkgSmpcValue.py` / `ActiveSmpcValue.py` — disqualification (claim C4) -/

/-- The DKG-instance state that the disqualification / finalization steps
read and write. -/
structure DkgState where
  n : Nat
  t : Nat
  /-- `_qualified`, initially `xrange(0, n)`. -/
  qualified : List Nat
  /-- `_disqualify_marked` (one flag per rank). -/
  marked : List Bool
  /-- `_received_secrets` (one share per rank; honest path: all present). -/
  receivedSecrets : List Nat
  order : Nat
  deriving Repr, DecidableEq

/-- `ActiveSmpcValue.disqualifyPlayerSet` (ActiveSmpcValue.py, lines
191-193): remove the given set from `_qualified` and return the new size. -/
def disqualifyPlayerSet (st : DkgState) (s : List Nat) : DkgState × Nat :=
  let q := st.qualified.filter (fun x => decide (x ∉ s))
  ({ st with qualified := q }, q.length)

/-- The local-disqualification-and-threshold-check part of
`JfDkgSmpcValue.sendComplaints` (JfDkgSmpcValue.py, lines 286-312): peers
about to be blamed are disqualified locally; when at most `t` qualified
players remain a `ThresholdError('too_few_players')` is raised. -/
def sendComplaintsThresholdCheck (st : DkgState) (toBlame : List Nat) : Except PyError DkgState :=
  let (st1, qualSize) := disqualifyPlayerSet st toBlame
  if qualSize ≤ st.t then Except.error (PyError.thresholdError "too_few_players")
  else Except.ok st1

/-- `JfDkgSmpcValue.disqualifyPlayers` (JfDkgSmpcValue.py, lines 347-352):
disqualify every still-qualified player whose `_disqualify_marked` flag is
set; raise `ThresholdError('too_few_players')` when at most `t` remain. -/
def disqualifyPlayers (st : DkgState) : Except PyError DkgState :=
  let disqualify_players := st.qualified.filter (fun x => st.marked.getD x false)
  let (st1, number_remaining_players) := disqualifyPlayerSet st disqualify_players
  if number_remaining_players ≤ st.t then Except.error (PyError.thresholdError "too_few_players")
  else Except.ok st1

/-- `JfDkgSmpcValue.computePublicValue` (JfDkgSmpcValue.py, lines 354-367),
secret-share part: `reduce(lambda x, y: (x + y) % order, qualified_secret_shares)`.
Python's `reduce` with no initial value raises `TypeError` on an empty
sequence. -/
def computePublicValueSecretShare (st : DkgState) : Except PyError Nat :=
  match st.qualified.map (fun i => st.receivedSecrets.getD i 0) with
  | [] => Except.error (PyError.typeError "reduce() of empty sequence with no initial value")
  | x :: rest => Except.ok (rest.foldl (fun a b => (a + b) % st.order) x)

/-- The tail of the `_secret_share_deferred` callback chain installed by
`JfDkgSmpcValue.initialize` (JfDkgSmpcValue.py, lines 106-121), from the
complaint phase onwards: `sendComplaints` runs (as an errback) only when
share verification raised a `ComplainError` listing ranks to blame; then
`disqualifyPlayers` and `computePublicValue` run in order, any raise
aborting the chain so that the instance never resolves. -/
def dkgComplaintPhase (st : DkgState) (complaints : Option (List Nat)) :
    Except PyError DkgState :=
  match complaints with
  | some toBlame => sendComplaintsThresholdCheck st toBlame
  | none => Except.ok st

def dkgFinalize (st : DkgState) (complaints : Option (List Nat)) :
    Except PyError (DkgState × Nat) := do
  let st1 ← dkgComplaintPhase st complaints
  let st2 ← disqualifyPlayers st1
  let secret ← computePublicValueSecretShare st2
  Except.ok (st2, secret)

/-! ## `Transaction.py` — `ConsistentBroadcastTransaction` (claim C5)

The sender of a consistent broadcast stores its own signature on the
message when sending SEND, collects signed ECHOs from its peers, and
broadcasts FINL once `getEchoNumber()` equals the echo threshold
`_t_echo`. -/

/-- `_t_echo` as computed in `ConsistentBroadcastTransaction.__init__`
(Transaction.py, line 464): `(n + t + 1 + ((n + t + 1) % 2)) / 2` with
Python 2 integer (floor) division. -/
def t_echo (n t : Nat) : Nat := (n + t + 1 + ((n + t + 1) % 2)) / 2

/-- Sender-side state of a consistent broadcast: the `_echos` array (a
stored signature per rank, `None` when absent). Signatures are modelled as
`Nat`s. -/
structure CbState where
  n : Nat
  t : Nat
  echos : List (Option Nat)
  deriving Repr, DecidableEq

/-- The sender state right after `sendSend` (Transaction.py, lines 539-544):
all `_echos` entries are `None` except the sender's own, which holds its own
signature over the message. -/
def cbAfterSendSend (n t rank sig : Nat) : CbState :=
  ⟨n, t, (List.replicate n (none : Option Nat)).set rank (some sig)⟩

/-- `ConsistentBroadcastTransaction.getEchoNumber` (Transaction.py, lines
477-478): the number of stored (non-`None`) echo signatures. -/
def getEchoNumber (st : CbState) : Nat := (st.echos.filter Option.isSome).length

/-- `ConsistentBroadcastTransaction.receivedEcho` (Transaction.py, lines
561-569): store the signature if it verifies, then broadcast FINL exactly
when the echo count equals `_t_echo`.  Returns the new state and whether
`sendFinal` was invoked. -/
def receivedEcho (st : CbState) (rank sig : Nat) (valid : Bool) : CbState × Bool :=
  let st1 := if valid then { st with echos := st.echos.set rank (some sig) } else st
  (st1, decide (getEchoNumber st1 = t_echo st1.n st1.t))

/-- Run `receivedEcho` over a sequence of echo events `(rank, sig, valid)`,
collecting for each event whether it triggered the FINL broadcast. -/
def runEchoes (st : CbState) : List (Nat × Nat × Bool) → CbState × List Bool
  | [] => (st, [])
  | e :: es =>
      let (st1, fired) := receivedEcho st e.1 e.2.1 e.2.2
      let (st2, fires) := runEchoes st1 es
      (st2, fired :: fires)

/-! ## `ShufflingProtocol.py` — checksum comparison (claim C7)

A peer receiving the ADDR list from its predecessor recombines the
layer checksum from the hash shares (a value reduced modulo `hash_order`)
and compares it against a reference checksum computed from the received
address list.  Both are rendered as 64-hex-digit strings by
`checksumToString`, which reduces modulo `hash_modulus = 2^256` first;
the string comparison is therefore equality modulo `2^256`.  SHA-256 is
left abstract (any function from addresses to digests `< 2^256`). -/

/-- `hash_order` from constants.py (line 29): the prime `2^265 - 49` used
for hash sharing. -/
def hash_order : Nat :=
  0x1ffffffffffffffffffffffffffffffffffffffffffffffffffffffffffffffffcf

/-- `hash_modulus` from constants.py (line 30): `2^256`. -/
def hash_modulus : Nat :=
  0x10000000000000000000000000000000000000000000000000000000000000000

/-- `checksumToString` (ShufflingProtocol.py, lines 42-43):
`'{0:0{1}x}'.format(int(checksum) % hash_modulus, 64)`.  The resulting
64-hex-digit string is in bijection with the number
`checksum % hash_modulus`, which is how it is modelled. -/
def checksumToString (checksum : Nat) : Nat := checksum % hash_modulus

/-- `computeReferenceChecksum` (ShufflingProtocol.py, lines 58-64): sum the
SHA-256 digests of the received addresses modulo `hash_order`, then render
via `checksumToString`. -/
def computeReferenceChecksum (sha256 : Nat → Nat) (layered_encryption : List Nat) : Nat :=
  checksumToString
    (layered_encryption.foldl (fun acc entry => (acc + sha256 entry) % hash_order) 0)

/-- `compareChecksums` (ShufflingProtocol.py, lines 66-73): raise
`ValueError('checksums_dont_match')` when the two rendered checksums
differ, otherwise return the checksum. -/
def compareChecksums (checksum reference_checksum : Nat) : Except PyError Nat :=
  if checksum ≠ reference_checksum then
    Except.error (PyError.valueError "checksums_dont_match")
  else Except.ok checksum

/-- The layer-checksum check a peer performs on a received ADDR list:
`recombined` is the recombined hash-share checksum for the previous layer
(the public value of the `Rec` over `𝔽_{p_hash}`, a value `< hash_order`),
rendered and compared against the reference checksum of the received
list. -/
def shuffleChecksumCheck (recombined : Nat) (sha256 : Nat → Nat) (addrs : List Nat) :
    Except PyError Nat :=
  compareChecksums (checksumToString recombined) (computeReferenceChecksum sha256 addrs)

/-! ## `base.py` and `shamir.py` — Shamir sharing over Python ints
(claims C1, C10, and the scalar arithmetic behind C3)

Python's `%` and `//` on ints agree with Lean's `Int.emod` / `Int.ediv`
whenever the divisor is positive, which is the case everywhere below. -/

/-- `bitcoin_order` from constants.py (line 23): the order of the secp256k1
generator. -/
def bitcoin_order : Nat :=
  0xFFFFFFFFFFFFFFFFFFFFFFFFFFFFFFFEBAAEDCE6AF48A03BBFD25E8CD0364141

/-- The `extended_gcd` loop inside `base.invert` (base.py, lines 32-43):
state `(a, b, x, lastx, y, lasty)`, one iteration per division step.  The
extra `fuel` argument is the loop variant: `|b|` strictly decreases each
iteration, so with `fuel > |b|` on entry the `fuel = 0` branch is never
taken (`extended_gcd_loop_fuel` below). -/
def extended_gcd_loop (fuel : Nat) (a b x lastx y lasty : Int) : Int × Int × Int :=
  match fuel with
  | 0 => (lastx, lasty, a)
  | fuel + 1 =>
      if b = 0 then (lastx, lasty, a)
      else
        extended_gcd_loop fuel b (a % b)
          (lastx - (a / b) * x) x (lasty - (a / b) * y) y

/-- `extended_gcd(a, b)` with the initial state `x = 0, lastx = 1, y = 1,
lasty = 0`; returns `(lastx, lasty, a)` of the final state. -/
def extended_gcd (a b : Int) : Int × Int × Int :=
  extended_gcd_loop (b.natAbs + 1) a b 0 1 1 0

/-- `base.invert` (base.py, lines 30-47): raise `ZeroDivisionError` on
`a == 0`, otherwise return the first Bézout coefficient of
`extended_gcd(a % order, order)` (an integer, possibly negative and not
reduced modulo `order`). -/
def invert (a : Int) (order : Nat) : Except PyError Int :=
  if a = 0 then Except.error (PyError.zeroDivisionError "cannot_invert_zero")
  else Except.ok (extended_gcd (a % (order : Int)) (order : Int)).1

/-- The `_horner` helper inside `shamir.share` (shamir.py, lines 164-170):
`result = (x * result + f) % order` over the factors, which are given
leading-coefficient first. -/
def horner (order : Nat) (factors : List Int) (x : Int) : Int :=
  factors.foldl (fun result f => (x * result + f) % (order : Int)) 0

/-- `shamir.share` (shamir.py, lines 149-178), with the single random field
element drawn by `smpcbase.randint(order)` made an explicit argument `r`:
`factors = [randint(order)] * t + [s]` repeats that one value `t` times
(Python list repetition), and share `i` (0-based) is
`(i + 1, _horner(factors, i + 1))`. -/
def share (s : Int) (n t : Nat) (order : Nat) (r : Int) : List (Int × Int) :=
  (List.range n).map
    (fun (i : Nat) =>
      ((i : Int) + 1, horner order (List.replicate t r ++ [s]) ((i : Int) + 1)))

/-- The `factors` list returned by `shamir.share` when `return_factors` is
true: `factors[::-1]`, i.e. constant coefficient first. -/
def shareFactors (s : Int) (t : Nat) (r : Int) : List Int :=
  (List.replicate t r ++ [s]).reverse

/-- `_filter_shares` inside `shamir.recombine` (shamir.py, lines 249-250):
drop the `None` shares and keep the first `t + 1`. -/
def filter_shares (shares : List (Int × Option Int)) (t : Nat) : List (Int × Int) :=
  (shares.filterMap (fun s => s.2.map (fun v => (s.1, v)))).take (t + 1)

/-- The `lagrange_factors` list comprehension inside `shamir.recombine`
(shamir.py, lines 267-271): for a player `i`, the factors
`((k - x) * invert(k - i, order)) % order` over all other players `k`. -/
def lagrange_factors (order : Nat) (x i : Int) (players : List Int) :
    Except PyError (List Int) :=
  (players.filter (fun k => decide (k ≠ i))).mapM (fun k => do
    let inv ← invert (k - i) order
    Except.ok (((k - x) * inv) % (order : Int)))

/-- Python2 `reduce(lambda x, y: (x * y) % order, l)`: no initial value, so
an empty `l` raises `TypeError`. -/
def reduce_mul_mod (order : Nat) : List Int → Except PyError Int
  | [] => Except.error (PyError.typeError "reduce() of empty sequence with no initial value")
  | f :: rest => Except.ok (rest.foldl (fun a b => (a * b) % (order : Int)) f)

/-- The non-robust branch of `shamir.recombine` (shamir.py, lines 249-275):
filter the shares, bail out with `None` when fewer than `t + 1` remain,
compute the Lagrange coefficients for the player tuple at evaluation point
`x` and return `sum(share_i * lagrange_i mod order) mod order`.  (The
`try/except KeyError/finally` caching block always recomputes the
coefficients in its `finally` clause, so the cache never changes the
result.) -/
def recombine_nonrobust (unf_shares : List (Int × Option Int)) (t : Nat) (x : Int)
    (order : Nat) : Except PyError (Option Int) :=
  if (filter_shares unf_shares t).length ≠ t + 1 then Except.ok none
  else do
    let lagranges ← ((filter_shares unf_shares t).map (fun s => s.1)).mapM (fun i => do
      let lf ← lagrange_factors order x i ((filter_shares unf_shares t).map (fun s => s.1))
      reduce_mul_mod order lf)
    Except.ok (some
      ((List.zipWith (fun s l => (s * l) % (order : Int))
          ((filter_shares unf_shares t).map (fun s => s.2)) lagranges).sum % (order : Int)))

/-! ## `shamir.py` — `FieldElement`, Gaussian elimination and
Berlekamp–Welch (claims C1 and C2)

`FieldElement(v, order)` holds `v % order`; for the prime orders in use its
arithmetic is that of `ZMod order`, with which it is embedded.  Its
`__div__` is `v * invert(v2, order) % order`; `invert` is proven below
(`invert_spec`) to compute the modular inverse for arguments that are
nonzero mod a prime `order`, so division is embedded as multiplication by
`ZMod.inv`; every division performed by the algorithms below is by a value
that is nonzero mod `order` (the chosen pivot, and the leading coefficient
`1` of the monic divisor `E`).  The `>` pivot comparison of `FieldElement`
compares the representatives `v`, i.e. `ZMod.val`. -/

/-- The modular inversion performed by `FieldElement.__div__` (shamir.py,
lines 117-119), which calls `smpcbase.invert(v2, self.order)`: the first
Bézout coefficient of `extended_gcd(v2 % order, order)`, cast back into the
field.  (`invert` raises `ZeroDivisionError` on `v2 == 0`; every division
in the algorithms below is by a nonzero element, so the raise is
unreachable and `fe_invert 0 = 0` here.) -/
def fe_invert (q : Nat) (a : ZMod q) : ZMod q :=
  (((extended_gcd ((a.val : Int) % (q : Int)) (q : Int)).1 : Int) : ZMod q)

/-- `FieldElement.__div__`: `v * invert(v2, order) % order`. -/
def fe_div (q : Nat) (a b : ZMod q) : ZMod q := a * fe_invert q b

/-- `_construct_equation_system` (shamir.py, lines 49-53): row `i` is
`[(i+1)^j for j < n-t] ++ [-shares[i][1]*(i+1)^j for j < t]` and the
right-hand side is `shares[i][1]*(i+1)^t`, all as field elements. -/
def construct_equation_system (q : Nat) (shares : List (Int × Int)) (t : Nat) :
    List (List (ZMod q)) × List (ZMod q) :=
  let n := shares.length
  ((List.range n).map (fun (i : Nat) =>
      ((List.range (n - t)).map (fun (j : Nat) => ((((i : Int) + 1) ^ j : Int) : ZMod q)))
      ++ ((List.range t).map (fun (j : Nat) =>
            ((-(shares.getD i (0, 0)).2 * ((i : Int) + 1) ^ j : Int) : ZMod q)))),
   (List.range n).map (fun (i : Nat) =>
      (((shares.getD i (0, 0)).2 * ((i : Int) + 1) ^ t : Int) : ZMod q)))

/-- The pivot search of `_solve_equation_system` (shamir.py, lines 61-66):
scan rows `k ∈ [i, n)` keeping the first row whose entry in column `i` has
the strictly largest representative; `p = 0, p_ind = -1` initially. -/
def findPivot (q : Nat) (Ab : List (List (ZMod q))) (i n : Nat) : ZMod q × Option Nat :=
  ((List.range n).drop i).foldl
    (fun acc k =>
      if acc.1.val < ((Ab.getD k []).getD i 0).val
      then ((Ab.getD k []).getD i 0, some k) else acc)
    (0, none)

/-- Python `Ab[i], Ab[p_ind] = Ab[p_ind], Ab[i]`. -/
def swapRows (q : Nat) (Ab : List (List (ZMod q))) (i k : Nat) : List (List (ZMod q)) :=
  let ri := Ab.getD i []
  let rk := Ab.getD k []
  (Ab.set i rk).set k ri

/-- The row operation `Ab[k] = [Ab[k][j] - (Ab[k][i] * Ab[i][j]) for j in
xrange(0, n + 1)]` shared by the elimination loops of
`_solve_equation_system` (shamir.py, lines 72 and 76). -/
def elimStep (q : Nat) (n i : Nat) (M : List (List (ZMod q))) (k : Nat) :
    List (List (ZMod q)) :=
  let rowk := M.getD k []
  M.set k ((List.range (n + 1)).map
    (fun (j : Nat) => rowk.getD j 0 - rowk.getD i 0 * (M.getD i []).getD j 0))

/-- One step `i` of the forward phase of `_solve_equation_system`
(shamir.py, lines 60-72): pivot search (`None` on an all-zero column),
row swap, normalization of row `i` by the pivot, and elimination below. -/
def forwardStep (q : Nat) (n i : Nat) (Ab : List (List (ZMod q))) :
    Option (List (List (ZMod q))) :=
  let (p, p_ind) := findPivot q Ab i n
  match p_ind with
  | none => none
  | some k =>
      let Ab1 := swapRows q Ab i k
      let rowi := (List.range (n + 1)).map
        (fun (j : Nat) => fe_div q ((Ab1.getD i []).getD j 0) p)
      let Ab2 := Ab1.set i rowi
      some (((List.range n).drop (i + 1)).foldl (elimStep q n i) Ab2)

/-- The forward loop `for i in xrange(0, n)` of `_solve_equation_system`:
`steps` counts the remaining iterations (`forward` below starts it at `n`
with `i = 0`, so the loop body runs exactly for `i = 0, …, n-1`). -/
def forwardLoop (q : Nat) (n : Nat) : Nat → Nat → List (List (ZMod q)) →
    Option (List (List (ZMod q)))
  | 0, _, Ab => some Ab
  | steps + 1, i, Ab =>
      match forwardStep q n i Ab with
      | none => none
      | some Ab1 => forwardLoop q n steps (i + 1) Ab1

def forward (q : Nat) (n : Nat) (Ab : List (List (ZMod q))) :
    Option (List (List (ZMod q))) :=
  forwardLoop q n n 0 Ab

/-- The back-substitution loop of `_solve_equation_system` (shamir.py,
lines 74-76): for `i` from `n-1` down to `0`, clear column `i` above the
diagonal. -/
def backward (q : Nat) (n : Nat) (Ab : List (List (ZMod q))) : List (List (ZMod q)) :=
  (List.range n).reverse.foldl
    (fun M i => (List.range i).foldl (elimStep q n i) M)
    Ab

/-- `_solve_equation_system` (shamir.py, lines 56-79): build the augmented
matrix, run the forward phase with partial pivoting (returning `None` when
a pivot column is all zero), back-substitute and read off the last
column. -/
def solve_equation_system (q : Nat) (matrix : List (List (ZMod q)))
    (solution : List (ZMod q)) : Option (List (ZMod q)) :=
  let n := matrix.length
  let Ab := (List.range n).map
    (fun (i : Nat) =>
      (List.range n).map (fun (j : Nat) => (matrix.getD i []).getD j 0)
        ++ [solution.getD i 0])
  match forward q n Ab with
  | none => none
  | some Ab1 =>
      let Ab2 := backward q n Ab1
      some ((List.range n).map
        (fun (i : Nat) => (Ab2.getD i []).getD ((Ab2.getD i []).length - 1) 0))

/-- `_split_factors` (shamir.py, lines 183-188): `Q = coeffs[:n-t]`,
`E = (coeffs[-t:] if t > 0 else []) + [1]`. -/
def split_factors (q : Nat) (coeffs : List (ZMod q)) (t : Nat) :
    List (ZMod q) × List (ZMod q) :=
  let n := coeffs.length
  (coeffs.take (n - t), (if 0 < t then coeffs.drop (n - t) else []) ++ [1])

/-- `while (len(Qt) > 1 and Qt[0] == 0): Qt = Qt[1:]` (shamir.py,
lines 196-197). -/
def strip_leading_zeros_keep1 (q : Nat) : List (ZMod q) → List (ZMod q)
  | a :: b :: rest =>
      if a = 0 then strip_leading_zeros_keep1 q (b :: rest) else a :: b :: rest
  | l => l

/-- `while (len(remainder) > 0 and remainder[0] == 0): remainder =
remainder[1:]` (shamir.py, lines 208-209). -/
def strip_all_zeros (q : Nat) : List (ZMod q) → List (ZMod q)
  | [] => []
  | a :: rest => if a = 0 then strip_all_zeros q rest else a :: rest

/-- `while (len(Pt) > t + 1 and Pt[0] == 0): Pt = Pt[1:]` (shamir.py,
lines 210-211). -/
def strip_Pt (q : Nat) (t : Nat) : List (ZMod q) → List (ZMod q)
  | [] => []
  | a :: rest =>
      if t + 1 < rest.length + 1 ∧ a = 0 then strip_Pt q t rest else a :: rest

/-- The division loop `while (len(Qt) >= len(Et))` of `_get_P` (shamir.py,
lines 198-206): subtract `c·Et` (with `c = Qt[0]/Et[0]`) from the leading
segment of `Qt`; if the leading entry was cancelled, shift `Qt` and append
`c` to `Pt`, else raise `ValueError`.  (Python evaluates `Qt[0]` before
`Et[0]`, so an empty `Qt` raises `IndexError`; both lists are non-empty in
every reachable call.)  The `fuel` argument is the loop variant: every
iteration shortens `Qt` by one, so `get_P` passes `len(Qt) + 1` and the
`fuel = 0` branch is never taken. -/
def poly_div_loop (q : Nat) (Et : List (ZMod q)) :
    Nat → List (ZMod q) → List (ZMod q) →
    Except PyError (List (ZMod q) × List (ZMod q))
  | 0, Qt, Pt => Except.ok (Pt, Qt)
  | fuel + 1, Qt, Pt =>
      if Et.length ≤ Qt.length then
        match Qt with
        | [] => Except.error (PyError.indexError "list index out of range")
        | q0 :: _ =>
            match Et with
            | [] => Except.error (PyError.indexError "list index out of range")
            | e0 :: _ =>
                let c := fe_div q q0 e0
                let Qt1 := (List.range Qt.length).map
                  (fun (i : Nat) =>
                    if i < Et.length then Qt.getD i 0 - c * Et.getD i 0 else Qt.getD i 0)
                if Qt1.getD 0 0 = 0 then poly_div_loop q Et fuel Qt1.tail (Pt ++ [c])
                else Except.error (PyError.valueError "Error in polynomial division.")
      else Except.ok (Pt, Qt)

/-- `_get_P` (shamir.py, lines 190-213): long division of `Q` by the monic
`E`, returning the quotient `P` (leading zeros beyond length `t+1`
stripped) and the remainder (leading zeros stripped). -/
def get_P (q : Nat) (Q E : List (ZMod q)) (t : Nat) :
    Except PyError (List (ZMod q) × List (ZMod q)) := do
  let Qt := strip_leading_zeros_keep1 q Q.reverse
  let Et := E.reverse
  let (Pt, Qt_final) ← poly_div_loop q Et (Qt.length + 1) Qt []
  let remainder := strip_all_zeros q Qt_final.reverse
  let P := (strip_Pt q t Pt).reverse
  Except.ok (P, remainder)

/-- The decrementing error-tolerance loop of `_berlekamp_welch` (shamir.py,
lines 215-222): try `th = t, t-1, ...`; on a singular system decrement;
raise `ValueError('unexpected_matrix_singularity')` below `0`.  Returns the
solution and the `th` at which it was found. -/
def bw_loop (q : Nat) (shares : List (Int × Int)) :
    Nat → Except PyError (List (ZMod q) × Nat)
  | 0 =>
      match solve_equation_system q (construct_equation_system q shares 0).1
              (construct_equation_system q shares 0).2 with
      | some x => Except.ok (x, 0)
      | none => Except.error (PyError.valueError "unexpected_matrix_singularity")
  | th + 1 =>
      match solve_equation_system q (construct_equation_system q shares (th + 1)).1
              (construct_equation_system q shares (th + 1)).2 with
      | some x => Except.ok (x, th + 1)
      | none => bw_loop q shares th

/-- `_berlekamp_welch` (shamir.py, lines 181-229): solve the equation
system (decrementing `th` on singularities), split the solution into
`(Q, E)`, divide; a non-zero remainder yields `None`, otherwise the secret
is `int(P[0]) % secret_order`. -/
def berlekamp_welch (q : Nat) (shares : List (Int × Int)) (t : Nat) :
    Except PyError (Option Int) := do
  let (x, th) ← bw_loop q shares t
  let (Q, E) := split_factors q x th
  let (P, remainder) ← get_P q Q E t
  if 0 < remainder.length then Except.ok none
  else
    match P with
    | [] => Except.error (PyError.indexError "list index out of range")
    | p0 :: _ => Except.ok (some ((p0.val : Int) % (q : Int)))

/-- Stable ascending insertion sort on the first component:
`replaced_shares.sort(key=lambda x: x[0])` (shamir.py, line 246). -/
def insert_by_fst (a : Int × Int) : List (Int × Int) → List (Int × Int)
  | [] => [a]
  | b :: rest => if b.1 < a.1 then b :: insert_by_fst a rest else a :: b :: rest

def sort_by_fst : List (Int × Int) → List (Int × Int)
  | [] => []
  | a :: rest => insert_by_fst a (sort_by_fst rest)

/-- `shamir.recombine` (shamir.py, lines 232-275): in robust mode, replace
`None` share values by `0`, sort by player index and run Berlekamp–Welch;
otherwise Lagrange-interpolate the first `t+1` non-`None` shares at `x`. -/
def recombine (unf_shares : List (Int × Option Int)) (t : Nat) (x : Int)
    (order : Nat) (robust : Bool) : Except PyError (Option Int) :=
  if robust then
    let replaced_shares := unf_shares.map (fun s => (s.1, s.2.getD 0))
    berlekamp_welch order (sort_by_fst replaced_shares) t
  else
    recombine_nonrobust unf_shares t x order

/-! ## `JfDkgSmpcValue.py` — Feldman commitments (claim C3)

The subgroup of secp256k1 generated by `G` is cyclic of prime order
`bitcoin_order`; it is embedded as the additive group `ZMod bitcoin_order`
of scalars, with `G ↦ 1`, so `a·G ↦ (a : ZMod bitcoin_order)`, point
addition is addition of scalars, and point equality is scalar equality
modulo the group order. -/

/-- A point of the subgroup `⟨G⟩` of secp256k1, represented by its discrete
logarithm to base `G`. -/
abbrev ECPoint := ZMod bitcoin_order

/-- The secp256k1 generator `G` (constants.py, line 48). -/
def ecG : ECPoint := 1

/-- Scalar multiplication `k * P` of an `ecdsa` curve point by a Python
int. -/
def ecScalarMul (k : Int) (P : ECPoint) : ECPoint :=
  (k : ZMod bitcoin_order) * P

/-- `JfDkgSmpcValue.createPrivateKeyShare` (JfDkgSmpcValue.py, lines
166-172), with the two random draws explicit: `a` is the dealer's secret
(`randint(order)`) and `r` the single coefficient drawn inside
`shamir.share`.  Returns `(_transmitted_secrets, _secret_factors,
_public_values)`. -/
def createPrivateKeyShare (a r : Int) (n t : Nat) :
    List Int × List Int × List ECPoint :=
  let shares := share a n t bitcoin_order r
  let factors := shareFactors a t r
  ((List.range n).map (fun i => (shares.getD i (0, 0)).2),
   (List.range (t + 1)).map (fun k => factors.getD k 0),
   (List.range (t + 1)).map (fun k => ecScalarMul (factors.getD k 0) ecG))

/-- `JfDkgSmpcValue.verifyShare` (JfDkgSmpcValue.py, lines 273-279):
`share * G == Σ_{k=0..t} ((checked_rank+1)^k) * A_k`, where `A_k` are the
received public values of the sending rank.  (`reduce(lambda x, y: x + y,
summands)` over the non-empty summand list is folded from `0`, which adds a
leading `0 + ·`.) -/
def verifyShare (public_shares : List ECPoint) (t : Nat) (shareVal : Int)
    (checked_rank : Nat) : Bool :=
  let j := checked_rank + 1
  let check1_share := ecScalarMul shareVal ecG
  let check2_summands := (List.range (t + 1)).map
    (fun k => ecScalarMul ((j : Int) ^ k) (public_shares.getD k 0))
  let check2_share := check2_summands.foldl (· + ·) 0
  decide (check1_share = check2_share)
/-! ## Horner-scheme lemmas -/

/-- The pure (un-reduced) Horner evaluation of a leading-coefficient-first
list over `ℤ`. -/
def hornerZ (factors : List Int) (x : Int) : Int :=
  factors.foldl (fun result f => x * result + f) 0

/-! ## Scaffolding: the Lagrange data computed by the non-robust
`recombine` for players `1..t+1` at evaluation point `x = 0`, written out
over the loop indices (used to state what `recombine` computes). -/

/-- The `k`-th Lagrange factor `((k - x) * invert(k - i, order)) % order`
computed by `recombine` for evaluation point `x = 0`, player `i = m+1` and
other player `k = j+1`. -/
def c1_factor (q m j : Nat) : Int :=
  (((j : Int) + 1 - 0)
      * (extended_gcd ((((j : Int) + 1) - ((m : Int) + 1)) % (q : Int)) (q : Int)).1)
    % (q : Int)

/-- The Lagrange factor list for player `m+1` among players `1..t+1`. -/
def c1_factorList (q t m : Nat) : List Int :=
  ((List.range (t + 1)).filter (fun j => decide (j ≠ m))).map (c1_factor q m)

/-- The reduced Lagrange coefficient for player `m+1`. -/
def c1_lambda (q t m : Nat) : Int :=
  match c1_factorList q t m with
  | [] => 0
  | f :: rest => rest.foldl (fun a b => (a * b) % (q : Int)) f


/-! ## Scaffolding: linear-system predicates for the Gaussian elimination
(claim C2) -/

/-- The dot product of the first `n` entries of `row` with `x`. -/
def dotCols (q n : Nat) (row x : List (ZMod q)) : ZMod q :=
  ∑ j ∈ Finset.range n, row.getD j 0 * x.getD j 0

/-- `x` satisfies the equation encoded by the augmented row `row`
(coefficients in columns `0..n-1`, right-hand side in column `n`). -/
def SolvesRow (q n : Nat) (row x : List (ZMod q)) : Prop :=
  dotCols q n row x = row.getD n 0

/-- `x` satisfies every equation of the augmented system `Ab`. -/
def SolvesSystem (q n : Nat) (Ab : List (List (ZMod q))) (x : List (ZMod q)) : Prop :=
  ∀ i < Ab.length, SolvesRow q n (Ab.getD i []) x

/-- Zeros below the diagonal in the first `i` columns (the state of the
augmented matrix after `i` forward-elimination steps). -/
def BelowZ (q n : Nat) (i : Nat) (Ab : List (List (ZMod q))) : Prop :=
  ∀ k j, j < i → j < k → k < n → (Ab.getD k []).getD j 0 = 0

/-- Unit diagonal in the first `i` rows. -/
def DiagOne (q n : Nat) (i : Nat) (Ab : List (List (ZMod q))) : Prop :=
  ∀ k, k < i → (Ab.getD k []).getD k 0 = 1

/-- Zeros above the diagonal in columns `i..n-1` (the state of the matrix
during back substitution, which processes columns from `n-1` down). -/
def AboveZ (q n : Nat) (i : Nat) (Ab : List (List (ZMod q))) : Prop :=
  ∀ k j, i ≤ j → j < n → k < j → (Ab.getD k []).getD j 0 = 0

/-- The augmented matrix has `n` rows of `n + 1` entries each. -/
def GoodShape (q n : Nat) (Ab : List (List (ZMod q))) : Prop :=
  Ab.length = n ∧ ∀ i, i < n → ((Ab.getD i []).length = n + 1)

/-- The augmented system has exactly one length-`n` solution. -/
def UniqueSol (q n : Nat) (Ab : List (List (ZMod q))) : Prop :=
  ∃ x, (x.length = n ∧ SolvesSystem q n Ab x)
    ∧ ∀ y, y.length = n → SolvesSystem q n Ab y → y = x

/-- The suffix `d_k, …, d_{n-1}` (at `s = i - k`) of a homogeneous solution
of an echelon system whose pivot column `i` is all zero from row `i` down:
`d_i = 1`, `d_j = 0` for `j > i`, and each `d_k` for `k < i` solves row `k`
by back substitution.  Witnesses that such a system never has a unique
solution. -/
def homoTail (q n : Nat) (A : List (List (ZMod q))) (i : Nat) : Nat → List (ZMod q)
  | 0 => 1 :: List.replicate (n - i - 1) 0
  | s + 1 =>
      (-(∑ j ∈ Finset.range (homoTail q n A i s).length,
          (A.getD (i - (s + 1)) []).getD (i - (s + 1) + 1 + j) 0
            * (homoTail q n A i s).getD j 0)) :: homoTail q n A i s

/-- The augmented matrix `Ab` built by `_solve_equation_system` (shamir.py,
line 58). -/
def solveAb (q : Nat) (matrix : List (List (ZMod q))) (solution : List (ZMod q)) :
    List (List (ZMod q)) :=
  (List.range matrix.length).map
    (fun (i : Nat) =>
      (List.range matrix.length).map (fun (j : Nat) => (matrix.getD i []).getD j 0)
        ++ [solution.getD i 0])

/-- The share list handed to `_berlekamp_welch` when every share of the
degree-`t` sharing polynomial `f` is present and correct: player `i + 1`
holds `f(i + 1)`, rendered as the Python pair `(i + 1, int(f(i + 1)))`. -/
def honestShares (q n : Nat) (f : Polynomial (ZMod q)) : List (Int × Int) :=
  (List.range n).map
    (fun (i : Nat) => ((i : Int) + 1, ((f.eval ((i : ZMod q) + 1)).val : Int)))

/-! # Theorems -/

/-! ## Horner-scheme lemmas -/

theorem hornerZ_foldl_acc (x : Int) (l : List Int) (acc : Int) :
    l.foldl (fun result f => x * result + f) acc
      = acc * x ^ l.length + hornerZ l x := by
  induction l generalizing acc with
  | nil => simp [hornerZ]
  | cons a l ih =>
      simp only [List.foldl_cons, hornerZ, List.length_cons] at *
      rw [ih (x * acc + a), ih (x * 0 + a)]
      ring

theorem horner_modEq_hornerZ (q : Nat) (x : Int) (l : List Int) (acc1 acc2 : Int)
    (h : acc1 ≡ acc2 [ZMOD (q : Int)]) :
    l.foldl (fun result f => (x * result + f) % (q : Int)) acc1
      ≡ l.foldl (fun result f => x * result + f) acc2 [ZMOD (q : Int)] := by
  induction l generalizing acc1 acc2 with
  | nil => simpa using h
  | cons a l ih =>
      simp only [List.foldl_cons]
      refine ih _ _ ?_
      calc (x * acc1 + a) % (q : Int)
          ≡ x * acc1 + a [ZMOD (q : Int)] := Int.emod_emod_of_dvd _ dvd_rfl
        _ ≡ x * acc2 + a [ZMOD (q : Int)] := by
            exact Int.ModEq.add_right a (Int.ModEq.mul_left x h)

theorem horner_eq_emod (q : Nat) (x : Int) (l : List Int) (acc : Int) (hl : l ≠ []) :
    ∃ m : Int, l.foldl (fun result f => (x * result + f) % (q : Int)) acc = m % (q : Int) := by
  induction l generalizing acc with
  | nil => exact absurd rfl hl
  | cons a l ih =>
      cases l with
      | nil => exact ⟨x * acc + a, rfl⟩
      | cons b l2 => exact ih _ (by simp)

theorem horner_nonneg_lt (q : Nat) (hq : 0 < q) (x : Int) (l : List Int) (hl : l ≠ []) :
    0 ≤ horner q l x ∧ horner q l x < (q : Int) := by
  obtain ⟨m, hm⟩ := horner_eq_emod q x l 0 hl
  unfold horner
  rw [hm]
  have hq' : (q : Int) ≠ 0 := by exact_mod_cast Nat.pos_iff_ne_zero.mp hq
  exact ⟨Int.emod_nonneg m hq', Int.emod_lt_of_pos m (by exact_mod_cast hq)⟩

theorem hornerZ_replicate (t : Nat) (r x : Int) :
    hornerZ (List.replicate t r) x = r * ∑ j ∈ Finset.range t, x ^ j := by
  induction t with
  | zero => simp [hornerZ]
  | succ t ih =>
      rw [List.replicate_succ, hornerZ]
      simp only [List.foldl_cons]
      rw [hornerZ_foldl_acc]
      simp only [List.length_replicate]
      rw [ih, Finset.sum_range_succ]
      ring

theorem hornerZ_sharing_poly (s r x : Int) (t : Nat) :
    hornerZ (List.replicate t r ++ [s]) x
      = s + r * ∑ j ∈ Finset.range t, x ^ (j + 1) := by
  unfold hornerZ
  rw [List.foldl_append]
  simp only [List.foldl_cons, List.foldl_nil]
  rw [show (List.replicate t r).foldl (fun result f => x * result + f) 0
        = hornerZ (List.replicate t r) x from rfl, hornerZ_replicate]
  rw [add_comm]
  congr 1
  simp only [Finset.mul_sum]
  exact Finset.sum_congr rfl (fun j _ => by ring)

/-- The share values of `shamir.share` are the sharing polynomial evaluated
modulo `order`. -/
theorem horner_share_value (q : Nat) (hq : 0 < q) (s r x : Int) (t : Nat) :
    horner q (List.replicate t r ++ [s]) x
      = (s + r * ∑ j ∈ Finset.range t, x ^ (j + 1)) % (q : Int) := by
  have h1 : horner q (List.replicate t r ++ [s]) x
      ≡ hornerZ (List.replicate t r ++ [s]) x [ZMOD (q : Int)] :=
    horner_modEq_hornerZ q x _ 0 0 Int.ModEq.rfl
  rw [hornerZ_sharing_poly] at h1
  obtain ⟨hge, hlt⟩ := horner_nonneg_lt q hq x (List.replicate t r ++ [s]) (by simp)
  calc horner q (List.replicate t r ++ [s]) x
      = horner q (List.replicate t r ++ [s]) x % (q : Int) :=
        (Int.emod_eq_of_lt hge hlt).symm
    _ = (s + r * ∑ j ∈ Finset.range t, x ^ (j + 1)) % (q : Int) := h1

/-- C10: `shamir.share` draws a single random field element `r` and
evaluates `f(x) = s + r·x + r·x² + ... + r·x^t` (all `t` non-constant
coefficients are the same value `r`, because `factors` is built by Python
list repetition `[randint(order)] * t + [s]`); the whole share vector
`(i+1, f(i+1) mod q)` is a function of `s` and that one value `r`, and the
returned factor list is `[s, r, ..., r]`. -/
theorem share_single_random_coefficient (s r : Int) (n t q : Nat) (hq : 0 < q) :
    share s n t q r
      = (List.range n).map (fun (i : Nat) =>
          ((i : Int) + 1,
            (s + r * ∑ j ∈ Finset.range t, ((i : Int) + 1) ^ (j + 1)) % (q : Int))) ∧
    shareFactors s t r = s :: List.replicate t r := by
  constructor
  · unfold share
    exact List.map_congr_left (fun i _ => by rw [horner_share_value q hq s r _ t])
  · unfold shareFactors
    simp

/-- Helper: the Bézout invariant of the `extended_gcd` loop: the result
`(rx, ry, g)` satisfies `rx*A + ry*B = g`, `g ≥ 0`, and `g` divides the
current `(a, b)` — provided the fuel exceeds `|b|`, which the wrapper
guarantees. -/
theorem extended_gcd_loop_spec (fuel : Nat) :
    ∀ (a b x lastx y lasty A B : Int), b.natAbs < fuel → 0 ≤ a → 0 ≤ b →
      lastx * A + lasty * B = a → x * A + y * B = b →
      (extended_gcd_loop fuel a b x lastx y lasty).1 * A
          + (extended_gcd_loop fuel a b x lastx y lasty).2.1 * B
          = (extended_gcd_loop fuel a b x lastx y lasty).2.2 ∧
        0 ≤ (extended_gcd_loop fuel a b x lastx y lasty).2.2 ∧
        (extended_gcd_loop fuel a b x lastx y lasty).2.2 ∣ a ∧
        (extended_gcd_loop fuel a b x lastx y lasty).2.2 ∣ b := by
  induction fuel with
  | zero => intro a b x lastx y lasty A B hfuel; omega
  | succ fuel ih =>
      intro a b x lastx y lasty A B hfuel ha hb hlast hcur
      rw [extended_gcd_loop]
      by_cases hb0 : b = 0
      · subst hb0
        simp only [if_pos rfl]
        exact ⟨hlast, ha, dvd_rfl, dvd_zero a⟩
      · simp only [if_neg hb0]
        have hbpos : 0 < b := lt_of_le_of_ne hb (Ne.symm hb0)
        have hm0 : 0 ≤ a % b := Int.emod_nonneg a hb0
        have hmlt : a % b < b := Int.emod_lt_of_pos a hbpos
        have hfuel2 : (a % b).natAbs < fuel := by omega
        have hnew : (lastx - a / b * x) * A + (lasty - a / b * y) * B = a % b := by
          have := Int.emod_def a b
          calc (lastx - a / b * x) * A + (lasty - a / b * y) * B
              = (lastx * A + lasty * B) - (a / b) * (x * A + y * B) := by ring
            _ = a - b * (a / b) := by rw [hlast, hcur]; ring
            _ = a % b := (Int.emod_def a b).symm
        obtain ⟨hbez, hpos, hdv1, hdv2⟩ :=
          ih b (a % b) (lastx - a / b * x) x (lasty - a / b * y) y A B hfuel2 hb hm0 hcur hnew
        refine ⟨hbez, hpos, ?_, hdv1⟩
        have := Int.ediv_add_emod a b
        calc (extended_gcd_loop fuel b (a % b) (lastx - a / b * x) x
                (lasty - a / b * y) y).2.2 ∣ b * (a / b) + a % b :=
              dvd_add (Dvd.dvd.mul_right hdv1 _) hdv2
          _ = a := Int.ediv_add_emod a b

/-- Helper: for a prime `q` and `a` not divisible by `q`, `base.invert`
returns a Bézout coefficient that is the inverse of `a` modulo `q`. -/
theorem invert_spec (q : Nat) (hq : q.Prime) (a : Int) (ha : a ≠ 0)
    (hnd : ¬ ((q : Int) ∣ a)) :
    invert a q = Except.ok (extended_gcd (a % (q : Int)) (q : Int)).1 ∧
      ((extended_gcd (a % (q : Int)) (q : Int)).1 : ZMod q) * (a : ZMod q) = 1 := by
  have hq0 : 0 < q := hq.pos
  have hqz : (q : Int) ≠ 0 := by exact_mod_cast Nat.pos_iff_ne_zero.mp hq0
  constructor
  · unfold invert
    rw [if_neg ha]
  · have hA0 : 0 ≤ a % (q : Int) := Int.emod_nonneg a hqz
    have hAlt : a % (q : Int) < (q : Int) := Int.emod_lt_of_pos a (by exact_mod_cast hq0)
    have hAne : a % (q : Int) ≠ 0 := fun hc => hnd (Int.dvd_of_emod_eq_zero hc)
    obtain ⟨hbez, hgpos, hdvA, hdvB⟩ :=
      extended_gcd_loop_spec ((q : Int).natAbs + 1) (a % (q : Int)) (q : Int) 0 1 1 0
        (a % (q : Int)) (q : Int) (by omega) hA0 (by positivity)
        (by ring) (by ring)
    set res := extended_gcd_loop ((q : Int).natAbs + 1) (a % (q : Int)) (q : Int) 0 1 1 0 with hres
    have hg1 : res.2.2 = 1 := by
      have hnat : res.2.2.natAbs ∣ q := by
        have := Int.natAbs_dvd_natAbs.mpr hdvB
        simpa using this
      rcases (Nat.Prime.eq_one_or_self_of_dvd hq _ hnat) with h1 | hqq
      · have := Int.natAbs_of_nonneg hgpos
        omega
      · exfalso
        have hgq : res.2.2 = (q : Int) := by
          have := Int.natAbs_of_nonneg hgpos
          rw [← this, hqq]
        rw [hgq] at hdvA
        have h0 : a % (q : Int) = 0 := by
          obtain ⟨k, hk⟩ := hdvA
          have hq1 : (1 : Int) ≤ (q : Int) := by exact_mod_cast hq0
          rcases lt_trichotomy k 0 with hk0 | hk0 | hk0
          · nlinarith
          · simp [hk, hk0]
          · nlinarith
        exact hAne h0
    have hbez2 : res.1 * (a % (q : Int)) + res.2.1 * (q : Int) = 1 := by
      rw [← hg1]; exact hbez
    have hcast := congrArg (fun z : Int => (z : ZMod q)) hbez2
    simp only [Int.cast_add, Int.cast_mul, Int.cast_one, Int.cast_natCast,
      ZMod.natCast_self, mul_zero, add_zero, ZMod.intCast_mod] at hcast
    unfold extended_gcd
    exact hcast

/-- C10, witness: for `s = 3`, `r = 1`, `n = 2`, `t = 2`, `q = 5` the shares
are the claimed polynomial evaluations and the factors are `[3, 1, 1]`. -/
theorem share_single_random_coefficient_witness :
    share 3 2 2 5 1
      = (List.range 2).map (fun (i : Nat) =>
          ((i : Int) + 1,
            (3 + 1 * ∑ j ∈ Finset.range 2, ((i : Int) + 1) ^ (j + 1)) % (5 : Int))) ∧
    shareFactors 3 2 1 = 3 :: List.replicate 2 1 :=
  share_single_random_coefficient 3 1 2 2 5 (by decide)

/-! ## Helper lemmas shared by the Shamir / DKG claims -/

theorem shareFactors_eq (s : Int) (t : Nat) (r : Int) :
    shareFactors s t r = s :: List.replicate t r := by
  unfold shareFactors
  simp

theorem getD_map_range {α : Type} (n j : Nat) (f : Nat → α) (d : α) (h : j < n) :
    ((List.range n).map f).getD j d = f j := by
  rw [List.getD_eq_getElem?_getD, List.getElem?_map, List.getElem?_range h]
  rfl

theorem getD_replicate {α : Type} (t k : Nat) (r d : α) (h : k < t) :
    (List.replicate t r).getD k d = r := by
  rw [List.getD_eq_getElem?_getD, List.getElem?_replicate]
  simp [h]

theorem foldl_add_range_sum {M : Type} [AddCommMonoid M] (n : Nat) (g : Nat → M) :
    ((List.range n).map g).foldl (· + ·) (0 : M) = ∑ k ∈ Finset.range n, g k := by
  induction n with
  | zero => simp
  | succ n ih =>
      rw [List.range_succ, List.map_append, List.foldl_append, ih, Finset.sum_range_succ]
      simp


theorem zmod_coe_inj (q : Nat) (i j : Nat) (hi : i < q) (hj : j < q)
    (h : (i : ZMod q) = (j : ZMod q)) : i = j := by
  have h1 := ZMod.val_cast_of_lt hi
  have h2 := ZMod.val_cast_of_lt hj
  rw [← h1, ← h2, h]

theorem lagrange_sum_at_zero (q : Nat) [Fact q.Prime] (t : Nat) (htq : t < q)
    (f : Polynomial (ZMod q)) (hdeg : f.degree < (t + 1 : Nat)) :
    ∑ m ∈ Finset.range (t + 1),
        f.eval ((m : ZMod q) + 1)
          * ∏ j ∈ (Finset.range (t + 1)).erase m,
              (((j : ZMod q) + 1) * (((j : ZMod q) + 1) - ((m : ZMod q) + 1))⁻¹)
      = f.eval 0 := by
  have hinj : Set.InjOn (fun m : Nat => (m : ZMod q) + 1) (Finset.range (t + 1)) := by
    intro i hi j hj hij
    simp only [Finset.coe_range, Set.mem_Iio] at hi hj
    have : (i : ZMod q) = (j : ZMod q) := by simpa using hij
    exact zmod_coe_inj q i j (by omega) (by omega) this
  have hcard : f.degree < (Finset.range (t + 1)).card := by rwa [Finset.card_range]
  have hf := Lagrange.eq_interpolate hinj hcard
  have heval := congrArg (Polynomial.eval 0) hf
  rw [Lagrange.interpolate_apply, Polynomial.eval_finset_sum] at heval
  rw [heval]
  refine Finset.sum_congr rfl (fun m hm => ?_)
  rw [Polynomial.eval_mul, Polynomial.eval_C]
  congr 1
  unfold Lagrange.basis
  rw [Polynomial.eval_prod]
  refine Finset.prod_congr rfl (fun j hj => ?_)
  unfold Lagrange.basisDivisor
  rw [Polynomial.eval_mul, Polynomial.eval_C, Polynomial.eval_sub, Polynomial.eval_X,
    Polynomial.eval_C]
  have : ((m : ZMod q) + 1 - ((j : ZMod q) + 1))⁻¹
      = -(((j : ZMod q) + 1 - ((m : ZMod q) + 1))⁻¹) := by
    rw [show (m : ZMod q) + 1 - ((j : ZMod q) + 1)
          = -(((j : ZMod q) + 1) - ((m : ZMod q) + 1)) by ring, inv_neg]
  rw [this]
  ring

theorem mapM_map_ok {α β γ : Type} (l : List α) (h : α → β) (f : β → Except PyError γ)
    (g : α → γ) (hall : ∀ x ∈ l, f (h x) = Except.ok (g x)) :
    (l.map h).mapM f = Except.ok (l.map g) := by
  induction l with
  | nil => rfl
  | cons a l ih =>
      rw [List.map_cons, List.mapM_cons, hall a (List.mem_cons_self a l),
        ih (fun x hx => hall x (List.mem_cons_of_mem a hx))]
      rfl

theorem foldl_mul_mod_cast (q : Nat) (l : List Int) (a : Int) :
    ((l.foldl (fun x y => (x * y) % (q : Int)) a : Int) : ZMod q)
      = (a : ZMod q) * (l.map (fun z : Int => (z : ZMod q))).prod := by
  induction l generalizing a with
  | nil => simp
  | cons b l ih =>
      rw [List.foldl_cons, ih, List.map_cons, List.prod_cons, ZMod.intCast_mod]
      push_cast
      ring

theorem list_range_map_sum {M : Type} [AddCommMonoid M] (n : Nat) (g : Nat → M) :
    ((List.range n).map g).sum = ∑ k ∈ Finset.range n, g k := by
  induction n with
  | zero => simp
  | succ n ih =>
      rw [List.range_succ, List.map_append, List.sum_append, ih, Finset.sum_range_succ]
      simp

theorem list_range_filter_map_prod {M : Type} [CommMonoid M] (n : Nat)
    (p : Nat → Prop) [DecidablePred p] (g : Nat → M) :
    (((List.range n).filter (fun j => decide (p j))).map g).prod
      = ∏ j ∈ (Finset.range n).filter p, g j := by
  induction n with
  | zero => simp
  | succ n ih =>
      rw [List.range_succ, List.filter_append, List.map_append, List.prod_append, ih,
        Finset.range_succ, Finset.filter_insert]
      by_cases hp : p n
      · rw [if_pos hp, Finset.prod_insert (by simp)]
        simp only [List.filter_cons, List.filter_nil]
        rw [if_pos (by simpa using hp)]
        simp [mul_comm]
      · rw [if_neg hp]
        simp only [List.filter_cons, List.filter_nil]
        rw [if_neg (by simpa using hp)]
        simp

theorem zipWith_map_same {α β γ δ : Type} (l : List α) (g : α → β) (h : α → γ)
    (f : β → γ → δ) :
    List.zipWith f (l.map g) (l.map h) = l.map (fun x => f (g x) (h x)) := by
  induction l with
  | nil => rfl
  | cons a l ih => simp [ih]


theorem filterMap_map_some (l : List (Int × Int)) :
    (l.map (fun p => (p.1, some p.2))).filterMap
        (fun s : Int × Option Int => s.2.map (fun v => (s.1, v))) = l := by
  induction l with
  | nil => rfl
  | cons a l ih => simp [ih]

theorem c1_factorList_ne_nil (q t m : Nat) (ht : 1 ≤ t) (hm : m < t + 1) :
    c1_factorList q t m ≠ [] := by
  unfold c1_factorList
  intro hc
  rw [List.map_eq_nil_iff, List.filter_eq_nil_iff] at hc
  by_cases hm0 : m = 0
  · exact absurd (by simp [hm0]) (hc 1 (List.mem_range.mpr (by omega)))
  · exact absurd (by simp [Ne.symm hm0]) (hc 0 (List.mem_range.mpr (by omega)))

theorem c1_invert_ok (q : Nat) (hq : q.Prime) (t : Nat) (htq : t < q)
    (m j : Nat) (hm : m < t + 1) (hj : j < t + 1) (hne : j ≠ m) :
    invert (((j : Int) + 1) - ((m : Int) + 1)) q
        = Except.ok (extended_gcd ((((j : Int) + 1) - ((m : Int) + 1)) % (q : Int)) (q : Int)).1 ∧
      ((extended_gcd ((((j : Int) + 1) - ((m : Int) + 1)) % (q : Int)) (q : Int)).1 : ZMod q)
          * ((((j : Int) + 1) - ((m : Int) + 1) : Int) : ZMod q) = 1 := by
  have ha : ((j : Int) + 1) - ((m : Int) + 1) ≠ 0 := by
    intro hc
    exact hne (by exact_mod_cast (by omega : (j : Int) = (m : Int)))
  have hnd : ¬ ((q : Int) ∣ (((j : Int) + 1) - ((m : Int) + 1))) := by
    intro hc
    have habs : |((j : Int) + 1) - ((m : Int) + 1)| < (q : Int) := by
      rw [abs_lt]
      constructor <;> [skip; skip] <;>
        (have h1 : (j : Int) < (t : Int) + 1 := by exact_mod_cast hj) <;>
        (have h2 : (m : Int) < (t : Int) + 1 := by exact_mod_cast hm) <;>
        (have h3 : (t : Int) < (q : Int) := by exact_mod_cast htq) <;>
        omega
    exact ha (Int.eq_zero_of_abs_lt_dvd hc habs)
  exact invert_spec q hq _ ha hnd

theorem c1_player_ok (q : Nat) (hq : q.Prime) (t : Nat) (htq : t < q) (ht : 1 ≤ t)
    (m : Nat) (hm : m < t + 1) :
    (do
      let lf ← lagrange_factors q 0 ((m : Int) + 1)
        ((List.range (t + 1)).map (fun i : Nat => (i : Int) + 1))
      reduce_mul_mod q lf) = Except.ok (c1_lambda q t m) := by
  have hfl : ((List.range (t + 1)).map (fun i : Nat => (i : Int) + 1)).filter
      (fun k => decide (k ≠ (m : Int) + 1))
      = ((List.range (t + 1)).filter (fun j => decide (j ≠ m))).map
          (fun i : Nat => (i : Int) + 1) := by
    rw [List.filter_map]
    congr 1
    refine List.filter_congr (fun j _ => ?_)
    simp only [Function.comp_apply, decide_eq_decide]
    constructor
    · intro hc hceq; exact hc (by rw [hceq])
    · intro hc hceq
      exact hc (by exact_mod_cast (by omega : (j : Int) = (m : Int)))
  have hmapM : (((List.range (t + 1)).filter (fun j => decide (j ≠ m))).map
        (fun i : Nat => (i : Int) + 1)).mapM (fun k => do
          let inv ← invert (k - ((m : Int) + 1)) q
          Except.ok (((k - 0) * inv) % (q : Int)))
      = Except.ok (c1_factorList q t m) := by
    unfold c1_factorList
    refine mapM_map_ok _ _ _ _ (fun j hjmem => ?_)
    obtain ⟨hjr, hjne⟩ := List.mem_filter.mp hjmem
    have hj : j < t + 1 := List.mem_range.mp hjr
    have hne : j ≠ m := by simpa using hjne
    obtain ⟨hok, _⟩ := c1_invert_ok q hq t htq m j hm hj hne
    rw [show (j : Int) + 1 - ((m : Int) + 1) = ((j : Int) + 1) - ((m : Int) + 1) from rfl, hok]
    rfl
  unfold lagrange_factors
  rw [hfl, hmapM]
  show reduce_mul_mod q (c1_factorList q t m) = _
  obtain ⟨f, rest, hfr⟩ : ∃ f rest, c1_factorList q t m = f :: rest := by
    rcases hc : c1_factorList q t m with _ | ⟨f, rest⟩
    · exact absurd hc (c1_factorList_ne_nil q t m ht hm)
    · exact ⟨f, rest, rfl⟩
  rw [hfr]
  unfold c1_lambda
  rw [hfr]
  rfl


theorem c1_lambda_cast (q : Nat) (hq : q.Prime) (t : Nat) (htq : t < q) (ht : 1 ≤ t)
    (m : Nat) (hm : m < t + 1) :
    ((c1_lambda q t m : Int) : ZMod q)
      = ∏ j ∈ (Finset.range (t + 1)).erase m,
          (((j : ZMod q) + 1) * (((j : ZMod q) + 1) - ((m : ZMod q) + 1))⁻¹) := by
  haveI : Fact q.Prime := ⟨hq⟩
  obtain ⟨f, rest, hfr⟩ : ∃ f rest, c1_factorList q t m = f :: rest := by
    rcases hc : c1_factorList q t m with _ | ⟨f, rest⟩
    · exact absurd hc (c1_factorList_ne_nil q t m ht hm)
    · exact ⟨f, rest, rfl⟩
  have hstep : ((c1_lambda q t m : Int) : ZMod q)
      = ((c1_factorList q t m).map (fun z : Int => (z : ZMod q))).prod := by
    unfold c1_lambda
    rw [hfr, foldl_mul_mod_cast]
    simp
  rw [hstep]
  unfold c1_factorList
  rw [List.map_map]
  have hpt : ∀ j ∈ (List.range (t + 1)).filter (fun j => decide (j ≠ m)),
      ((fun z : Int => (z : ZMod q)) ∘ c1_factor q m) j
        = (((j : ZMod q) + 1) * (((j : ZMod q) + 1) - ((m : ZMod q) + 1))⁻¹) := by
    intro j hjmem
    obtain ⟨hjr, hjne⟩ := List.mem_filter.mp hjmem
    have hj : j < t + 1 := List.mem_range.mp hjr
    have hne : j ≠ m := by simpa using hjne
    obtain ⟨_, hinv⟩ := c1_invert_ok q hq t htq m j hm hj hne
    simp only [Function.comp_apply]
    unfold c1_factor
    rw [ZMod.intCast_mod, Int.cast_mul]
    have harg : ((((j : Int) + 1) - ((m : Int) + 1) : Int) : ZMod q)
        = ((j : ZMod q) + 1) - ((m : ZMod q) + 1) := by push_cast; ring
    have hinv2 : (((j : ZMod q) + 1) - ((m : ZMod q) + 1))⁻¹
        = ((extended_gcd ((((j : Int) + 1) - ((m : Int) + 1)) % (q : Int)) (q : Int)).1 : ZMod q) := by
      refine inv_eq_of_mul_eq_one_right ?_
      rw [← harg, mul_comm]
      exact hinv
    rw [hinv2]
    push_cast
    ring
  rw [List.map_congr_left hpt]
  rw [list_range_filter_map_prod (t + 1) (fun j => j ≠ m)
    (fun j => (((j : ZMod q) + 1) * (((j : ZMod q) + 1) - ((m : ZMod q) + 1))⁻¹))]
  rw [Finset.filter_ne']

theorem horner_cast_eval (q : Nat) (hq0 : 0 < q) (s r : Int) (t : Nat) (x : Int) :
    ((horner q (List.replicate t r ++ [s]) x : Int) : ZMod q)
      = Polynomial.eval ((x : Int) : ZMod q)
          (Polynomial.C (s : ZMod q)
            + Polynomial.C (r : ZMod q) * ∑ j ∈ Finset.range t, Polynomial.X ^ (j + 1)) := by
  rw [horner_share_value q hq0 s r x t, ZMod.intCast_mod]
  push_cast
  rw [Polynomial.eval_add, Polynomial.eval_C, Polynomial.eval_mul, Polynomial.eval_C,
    Polynomial.eval_finset_sum]
  simp

theorem sharing_poly_degree (q : Nat) [Fact q.Prime] (s r : ZMod q) (t : Nat) :
    (Polynomial.C s + Polynomial.C r * ∑ j ∈ Finset.range t, Polynomial.X ^ (j + 1)).degree
      < ((t + 1 : Nat) : WithBot Nat) := by
  apply lt_of_le_of_lt (Polynomial.degree_add_le _ _)
  rw [max_lt_iff]
  constructor
  · exact lt_of_le_of_lt Polynomial.degree_C_le (by exact_mod_cast Nat.succ_pos t)
  · apply lt_of_le_of_lt (Polynomial.degree_mul_le _ _)
    have h1 : (Polynomial.C r).degree ≤ 0 := Polynomial.degree_C_le
    have h2 : (∑ j ∈ Finset.range t, (Polynomial.X : Polynomial (ZMod q)) ^ (j + 1)).degree
        ≤ (t : WithBot Nat) := by
      apply le_trans (Polynomial.degree_sum_le _ _)
      rw [Finset.sup_le_iff]
      intro j hj
      rw [Polynomial.degree_X_pow]
      exact_mod_cast Nat.succ_le_of_lt (Finset.mem_range.mp hj)
    calc (Polynomial.C r).degree
          + (∑ j ∈ Finset.range t, (Polynomial.X : Polynomial (ZMod q)) ^ (j + 1)).degree
        ≤ 0 + (t : WithBot Nat) := add_le_add h1 h2
      _ = (t : WithBot Nat) := zero_add _
      _ < ((t + 1 : Nat) : WithBot Nat) := by exact_mod_cast Nat.lt_succ_self t


/-- C1 (amended): Shamir round trip in the non-robust mode. -/
theorem shamir_roundtrip_nonrobust (q : Nat) (hq : q.Prime) (s r : Int) (t n : Nat)
    (ht : 1 ≤ t) (htq : t < q) (hs0 : 0 ≤ s) (hsq : s < (q : Int)) (hn : t + 1 ≤ n) :
    recombine (((share s n t q r).map (fun p => (p.1, some p.2))).take (t + 1)) t 0 q false
      = Except.ok (some s) := by
  haveI : Fact q.Prime := ⟨hq⟩
  have hq0 : 0 < q := hq.pos
  have hinput : ((share s n t q r).map (fun p => (p.1, some p.2))).take (t + 1)
      = ((List.range (t + 1)).map
          (fun i : Nat => ((i : Int) + 1,
            horner q (List.replicate t r ++ [s]) ((i : Int) + 1)))).map
          (fun p : Int × Int => (p.1, some p.2)) := by
    rw [← List.map_take]
    congr 1
    unfold share
    rw [← List.map_take, List.take_range, min_eq_left hn]
  rw [hinput]
  set L := (List.range (t + 1)).map
    (fun i : Nat => ((i : Int) + 1,
      horner q (List.replicate t r ++ [s]) ((i : Int) + 1))) with hLdef
  have hrb : recombine (L.map (fun p : Int × Int => (p.1, some p.2))) t 0 q false
      = recombine_nonrobust (L.map (fun p : Int × Int => (p.1, some p.2))) t 0 q := by
    unfold recombine
    rw [if_neg (by simp)]
  rw [hrb]
  have hfil : filter_shares (L.map (fun p : Int × Int => (p.1, some p.2))) t = L := by
    unfold filter_shares
    rw [filterMap_map_some]
    apply List.take_of_length_le
    rw [hLdef, List.length_map, List.length_range]
  have hlen : L.length = t + 1 := by rw [hLdef]; simp
  unfold recombine_nonrobust
  rw [hfil]
  rw [if_neg (by rw [hlen]; simp)]
  have hplayers : L.map (fun s => s.1) = (List.range (t + 1)).map (fun i : Nat => (i : Int) + 1) := by
    rw [hLdef, List.map_map]
    rfl
  have hvalues : L.map (fun s => s.2)
      = (List.range (t + 1)).map
          (fun i : Nat => horner q (List.replicate t r ++ [s]) ((i : Int) + 1)) := by
    rw [hLdef, List.map_map]
    rfl
  rw [hplayers, hvalues]
  have hmapM : ((List.range (t + 1)).map (fun i : Nat => (i : Int) + 1)).mapM
      (fun i => do
        let lf ← lagrange_factors q 0 i ((List.range (t + 1)).map (fun i : Nat => (i : Int) + 1))
        reduce_mul_mod q lf)
      = Except.ok ((List.range (t + 1)).map (fun m => c1_lambda q t m)) :=
    mapM_map_ok _ _ _ _ (fun m hmmem =>
      c1_player_ok q hq t htq ht m (List.mem_range.mp hmmem))
  rw [hmapM]
  show Except.ok (some _) = _
  congr 1
  congr 1
  -- the integer secret equals s
  rw [zipWith_map_same]
  set S0 := ((List.range (t + 1)).map
    (fun x : Nat => (horner q (List.replicate t r ++ [s]) ((x : Int) + 1)
      * c1_lambda q t x) % (q : Int))).sum with hS0
  have hqz : (q : Int) ≠ 0 := by exact_mod_cast Nat.pos_iff_ne_zero.mp hq0
  have hcast : ((S0 % (q : Int) : Int) : ZMod q) = ((s : Int) : ZMod q) := by
    rw [ZMod.intCast_mod, hS0, Int.cast_list_sum, List.map_map]
    have hterm : ∀ m ∈ List.range (t + 1),
        ((fun z : Int => (z : ZMod q)) ∘
          (fun x : Nat => (horner q (List.replicate t r ++ [s]) ((x : Int) + 1)
            * c1_lambda q t x) % (q : Int))) m
        = Polynomial.eval ((m : ZMod q) + 1)
            (Polynomial.C (s : ZMod q)
              + Polynomial.C (r : ZMod q) * ∑ j ∈ Finset.range t, Polynomial.X ^ (j + 1))
          * ∏ j ∈ (Finset.range (t + 1)).erase m,
              (((j : ZMod q) + 1) * (((j : ZMod q) + 1) - ((m : ZMod q) + 1))⁻¹) := by
      intro m hmmem
      have hm : m < t + 1 := List.mem_range.mp hmmem
      simp only [Function.comp_apply]
      rw [ZMod.intCast_mod, Int.cast_mul]
      rw [horner_cast_eval q hq0 s r t ((m : Int) + 1)]
      rw [c1_lambda_cast q hq t htq ht m hm]
      congr 2
      push_cast
      ring
    rw [List.map_congr_left hterm, list_range_map_sum]
    rw [lagrange_sum_at_zero q t htq _ (sharing_poly_degree q (s : ZMod q) (r : ZMod q) t)]
    rw [Polynomial.eval_add, Polynomial.eval_C, Polynomial.eval_mul, Polynomial.eval_C,
      Polynomial.eval_finset_sum]
    have : ∀ j ∈ Finset.range t, ((Polynomial.X : Polynomial (ZMod q)) ^ (j + 1)).eval 0 = 0 := by
      intro j _
      rw [Polynomial.eval_pow, Polynomial.eval_X]
      exact zero_pow (Nat.succ_ne_zero j)
    rw [Finset.sum_congr rfl this]
    simp
  have hSmod := (ZMod.intCast_eq_intCast_iff' _ _ _).mp hcast
  rw [Int.emod_emod_of_dvd _ dvd_rfl, Int.emod_eq_of_lt hs0 hsq] at hSmod
  exact hSmod


/-- C1 (amended), witness: `q = 5`, `s = 3`, `r = 1`, `t = 1`, `n = 2`:
the first two shares `[(1,4),(2,0)]` recombine (non-robustly) to `3`. -/
theorem shamir_roundtrip_nonrobust_witness :
    recombine (((share 3 2 1 5 1).map (fun p => (p.1, some p.2))).take (1 + 1)) 1 0 5 false
      = Except.ok (some 3) :=
  shamir_roundtrip_nonrobust 5 (by norm_num) 3 1 1 2 (by decide) (by decide)
    (by decide) (by decide) (by decide)

/-- C1, counterexample: the round trip fails in both modes.
(i) Robust mode crashes on honest shares: for `q = 5`, `s = 3`, `t = 1`,
`n = 2`, randomness `r = 1`, the shares are `[(1,4),(2,0)]`; the
Berlekamp–Welch equation system at `th = 1` is regular and yields
`Q = [0]`, `E = [4,1]`, whose division leaves an empty quotient, so
`secret = int(P[0])` raises `IndexError` instead of returning `3`.
(ii) Non-robust mode returns the wrong value when `q ≤ t`: for `q = 2`,
`s = 1`, `t = 3`, `n = 4`, `r = 1` the first `t+1 = 4` shares recombine to
`0 ≠ 1 = s` (the evaluation points `1..4` collide modulo `2` and `invert`
returns `0` for arguments divisible by `q`).
(iii) Non-robust mode crashes for `t = 0`: `reduce()` of the empty Lagrange
factor list raises `TypeError` (here `q = 5`, `s = 2`, `n = 1`). -/
theorem shamir_roundtrip_counterexample :
    recombine (((share 3 2 1 5 1).map (fun p => (p.1, some p.2))).take 2) 1 0 5 true
      = Except.error (PyError.indexError "list index out of range") ∧
    (recombine (((share 1 4 3 2 1).map (fun p => (p.1, some p.2))).take 4) 3 0 2 false
      = Except.ok (some 0) ∧ (0 : Int) ≠ 1) ∧
    recombine (((share 2 1 0 5 1).map (fun p => (p.1, some p.2))).take 1) 0 0 5 false
      = Except.error (PyError.typeError "reduce() of empty sequence with no initial value") :=
  ⟨rfl, ⟨rfl, by decide⟩, rfl⟩

/-- C3: Feldman verification completeness.  If a dealer honestly creates its
sharing via `createPrivateKeyShare` (secret `a`, polynomial coefficient `r`,
commitments `A_k = factors[k]·G`) and sends the share `f(j+1)` to the peer
of rank `j`, then `verifyShare` accepts at every receiver rank `j < n`:
`f(j+1)·G = Σ_{k=0..t} (j+1)^k · A_k`. -/
theorem feldman_verification_completeness (a r : Int) (n t : Nat) (jrank : Nat)
    (hj : jrank < n) :
    verifyShare (createPrivateKeyShare a r n t).2.2 t
      ((createPrivateKeyShare a r n t).1.getD jrank 0) jrank = true := by
  have hN : 0 < bitcoin_order := by decide
  unfold createPrivateKeyShare verifyShare
  simp only
  rw [getD_map_range n jrank _ 0 hj]
  unfold share
  rw [getD_map_range n jrank _ (0, 0) hj]
  simp only
  rw [decide_eq_true_eq]
  have hsummands :
      (List.range (t + 1)).map (fun k =>
        ecScalarMul (((jrank + 1 : Nat) : Int) ^ k)
          (((List.range (t + 1)).map
              (fun k => ecScalarMul ((shareFactors a t r).getD k 0) ecG)).getD k 0))
      = (List.range (t + 1)).map (fun k =>
          ecScalarMul (((jrank + 1 : Nat) : Int) ^ k)
            (ecScalarMul ((shareFactors a t r).getD k 0) ecG)) := by
    refine List.map_congr_left (fun k hk => ?_)
    rw [getD_map_range (t + 1) k _ 0 (List.mem_range.mp hk)]
  rw [hsummands, foldl_add_range_sum]
  rw [horner_share_value bitcoin_order hN a r ((jrank : Int) + 1) t]
  unfold ecScalarMul ecG
  rw [ZMod.intCast_mod]
  push_cast
  rw [shareFactors_eq]
  rw [Finset.sum_range_succ']
  have hterm : ∀ k ∈ Finset.range t,
      (((jrank : ZMod bitcoin_order) + 1) ^ (k + 1) *
        (((a :: List.replicate t r).getD (k + 1) 0 : Int) * 1))
      = ((jrank : ZMod bitcoin_order) + 1) ^ (k + 1) * (r : ZMod bitcoin_order) := by
    intro k hk
    rw [List.getD_cons_succ, getD_replicate t k r 0 (Finset.mem_range.mp hk)]
    ring
  rw [Finset.sum_congr rfl hterm]
  simp only [List.getD_cons_zero, pow_zero, one_mul, mul_one]
  rw [Finset.mul_sum]
  rw [add_comm]
  congr 1
  exact Finset.sum_congr rfl (fun k _ => by ring)

/-- C3, witness: with secret `a = 2`, coefficient `r = 3`, `n = 3` peers and
threshold `t = 1`, the receiver of rank `1` accepts its share. -/
theorem feldman_verification_completeness_witness :
    verifyShare (createPrivateKeyShare 2 3 3 1).2.2 1
      ((createPrivateKeyShare 2 3 3 1).1.getD 1 0) 1 = true :=
  feldman_verification_completeness 2 3 3 1 1 (by decide)
/-! ## Theorems for claims C9, C8, C6, C4 -/

/-- Helper: the pop-loop fires the queued deferreds in reverse registration
order, each exactly once, with the resolved share. -/
theorem informDependentSecretDeferreds_eq_reverse (deps : List Nat) (share : Nat) :
    informDependentSecretDeferreds deps share = deps.reverse.map (fun d => (d, share)) := by
  induction deps using List.reverseRecOn with
  | nil => rw [informDependentSecretDeferreds]; simp
  | append_singleton l a ih =>
      rw [informDependentSecretDeferreds]
      simp [List.getLast_concat, ih]

/-- C9: `sendrawtransaction` returns normally (swallowing the error, result
`None`) exactly when the RPC call fails with error code `-25`, and raises
(`IndexError`) for every RPC failure with any other error code; successful
calls return their value. -/
theorem sendrawtransaction_error_absorption (tx : String) (code : Int) (m v : String) :
    sendrawtransaction tx (RpcOutcome.ok v) = Except.ok (some v) ∧
    (sendrawtransaction tx (RpcOutcome.jsonRpcError code m) = Except.ok none ↔ code = -25) ∧
    ((∃ e, sendrawtransaction tx (RpcOutcome.jsonRpcError code m) = Except.error e) ↔ code ≠ -25) := by
  refine ⟨rfl, ?_, ?_⟩ <;> by_cases h : code = -25 <;> simp [sendrawtransaction, h]

/-- C8, counterexample: two consumers register (in order) the deferreds `0`
then `1`; upon resolution with share `7` the completions fire as
`[(1, 7), (0, 7)]` — not in registration order `[(0, 7), (1, 7)]` as the
claim states. -/
theorem informDependentSecretDeferreds_not_registration_order :
    informDependentSecretDeferreds [0, 1] 7 = [(1, 7), (0, 7)] ∧
    informDependentSecretDeferreds [0, 1] 7 ≠ [(0, 7), (1, 7)] := by
  have h := informDependentSecretDeferreds_eq_reverse [0, 1] 7
  refine ⟨h.trans (by decide), ?_⟩
  rw [h]; decide

/-- C8 (amended): for every `SmpcValue` whose secret-share promise is awaited
by several consumers before the value resolves, the queued completions fire,
upon resolution, in the REVERSE of the order in which the consumers
registered them (Python `list.pop()` pops from the end), and each consumer's
promise fires exactly once with the resolved share. -/
theorem informDependentSecretDeferreds_reverse_order_once (deps : List Nat) (share : Nat) :
    informDependentSecretDeferreds deps share = deps.reverse.map (fun d => (d, share)) :=
  informDependentSecretDeferreds_eq_reverse deps share

/-- C6: evaluating `EachcastTransaction.receivedResponse` at the failing
input — an eachcast transaction with a result fetcher, expecting responses
from ranks `{0, 1}`, receiving a response from the expected rank `0` — the
call raises `TypeError`, because `super(BroadcastTransaction, self)` is
invoked with `self` an `EachcastTransaction`, which is not a subtype of
`BroadcastTransaction`.  The identical input on a broadcast transaction is
processed normally (rank `0` recorded, transaction still pending rank `1`),
which is the behaviour the spec prescribes for eachcast. -/
theorem eachcast_receivedResponse_raises_type_error :
    eachcastReceivedResponse ⟨[0, 1], none, false, false⟩
        (some (fun _ _ _ => ⟨true, 42⟩)) ⟨some 0⟩ =
      Except.error (PyError.typeError
        "super(type, obj): obj must be an instance or subtype of type") ∧
    broadcastReceivedResponse ⟨[0, 1], none, false, false⟩
        (some (fun _ _ _ => ⟨true, 42⟩)) ⟨some 0⟩ =
      Except.ok ⟨[1], some 42, true, false⟩ :=
  ⟨rfl, rfl⟩

/-- Helper: success of an `Except` bind splits into successes of the
stages. -/
theorem except_bind_ok {ε α β : Type} (x : Except ε α) (f : α → Except ε β) (b : β) :
    (x >>= f) = Except.ok b ↔ ∃ a, x = Except.ok a ∧ f a = Except.ok b := by
  cases x <;> simp [Bind.bind, Except.bind]

/-- Helper: `disqualifyPlayers` succeeds only with strictly more than `t`
players remaining, and it never changes `t`. -/
theorem disqualifyPlayers_ok (st st2 : DkgState) (h : disqualifyPlayers st = Except.ok st2) :
    st.t < st2.qualified.length ∧ st2.t = st.t := by
  simp only [disqualifyPlayers, disqualifyPlayerSet] at h
  split at h
  · exact absurd h (by simp)
  · rename_i hgt
    obtain rfl : _ = st2 := Except.ok.inj h
    exact ⟨Nat.lt_of_not_le hgt, rfl⟩

/-- Helper: the complaint-phase threshold check never changes `t`. -/
theorem sendComplaintsThresholdCheck_ok_t (st st1 : DkgState) (toBlame : List Nat)
    (h : sendComplaintsThresholdCheck st toBlame = Except.ok st1) : st1.t = st.t := by
  simp only [sendComplaintsThresholdCheck, disqualifyPlayerSet] at h
  split at h
  · exact absurd h (by simp)
  · obtain rfl : _ = st1 := Except.ok.inj h
    rfl

/-- C4: a JF-DKG instance never resolves with a qualified set of size at most
`t`: whenever the finalization chain (complaint-phase threshold check in
`sendComplaints`, then `disqualifyPlayers`, then `computePublicValue`)
completes without raising a `ThresholdError`, the resulting qualified set is
strictly larger than `t`. -/
theorem jfdkg_resolved_qualified_gt_t (st : DkgState) (complaints : Option (List Nat))
    (res : DkgState × Nat) (h : dkgFinalize st complaints = Except.ok res) :
    st.t < res.1.qualified.length := by
  unfold dkgFinalize at h
  rw [except_bind_ok] at h
  obtain ⟨st1, h1, h⟩ := h
  rw [except_bind_ok] at h
  obtain ⟨st2, h2, h⟩ := h
  rw [except_bind_ok] at h
  obtain ⟨secret, _, h4⟩ := h
  obtain rfl : _ = res := Except.ok.inj h4
  obtain ⟨hlt, _⟩ := disqualifyPlayers_ok st1 st2 h2
  have ht1 : st1.t = st.t := by
    rcases complaints with _ | toBlame
    · exact congrArg DkgState.t (Except.ok.inj h1).symm
    · exact sendComplaintsThresholdCheck_ok_t st st1 toBlame h1
  rw [← ht1]
  exact hlt

/-- Helper: storing a signature at a rank that held none increments the echo
count by one. -/
theorem countSome_set_fresh (l : List (Option Nat)) (i : Nat) (v : Nat)
    (h : l[i]? = some none) :
    ((l.set i (some v)).filter Option.isSome).length
      = (l.filter Option.isSome).length + 1 := by
  induction l generalizing i with
  | nil => simp at h
  | cons a as ih =>
      cases i with
      | zero =>
          obtain rfl : a = none := by simpa using h
          simp [List.filter]
      | succ k =>
          have hk : as[k]? = some none := by simpa using h
          cases a with
          | none => simpa [List.filter] using ih k hk
          | some b => simpa [List.filter] using ih k hk

/-- Helper: entries other than the one being set are unchanged. -/
theorem getElemQ_set_ne (l : List (Option Nat)) (i j : Nat) (v : Option Nat)
    (hij : i ≠ j) : (l.set i v)[j]? = l[j]? := by
  induction l generalizing i j with
  | nil => simp
  | cons a as ih =>
      cases i with
      | zero => cases j with
          | zero => exact absurd rfl hij
          | succ k => simp
      | succ m => cases j with
          | zero => simp
          | succ k => simpa using ih m k (fun hc => hij (by rw [hc]))

/-- Helper: running a sequence of valid echoes from pairwise-distinct,
previously unheard ranks triggers the FINL broadcast exactly at the event
that brings the echo count to `_t_echo`. -/
theorem runEchoes_fires (st : CbState) (events : List (Nat × Nat × Bool))
    (hfresh : ∀ e ∈ events, e.2.2 = true ∧ st.echos[e.1]? = some none)
    (hnodup : (events.map (fun e => e.1)).Nodup) :
    (runEchoes st events).2
      = (List.range events.length).map
          (fun j => decide (getEchoNumber st + (j + 1) = t_echo st.n st.t)) := by
  induction events generalizing st with
  | nil => simp [runEchoes]
  | cons e es ih =>
      obtain ⟨hvalid, hget⟩ := hfresh e (List.mem_cons_self e es)
      have hval : e.2.2 = true := hvalid
      simp only [runEchoes, receivedEcho, hval, if_pos]
      have hcount : getEchoNumber { st with echos := st.echos.set e.1 (some e.2.1) }
          = getEchoNumber st + 1 := countSome_set_fresh st.echos e.1 e.2.1 hget
      have hfresh2 : ∀ e2 ∈ es, e2.2.2 = true ∧
          ({ st with echos := st.echos.set e.1 (some e.2.1) } : CbState).echos[e2.1]? = some none := by
        intro e2 he2
        refine ⟨(hfresh e2 (List.mem_cons_of_mem e he2)).1, ?_⟩
        have hne : e.1 ≠ e2.1 := by
          have := hnodup
          simp only [List.map_cons, List.nodup_cons] at this
          exact fun hc => this.1 (hc ▸ List.mem_map_of_mem (fun x => x.1) he2)
        simpa [getElemQ_set_ne st.echos e.1 e2.1 (some e.2.1) hne]
          using (hfresh e2 (List.mem_cons_of_mem e he2)).2
      have hnodup2 : (es.map (fun e => e.1)).Nodup := by
        simp only [List.map_cons, List.nodup_cons] at hnodup
        exact hnodup.2
      rw [ih _ hfresh2 hnodup2]
      simp only [List.length_cons, List.range_succ_eq_map, List.map_cons, List.map_map]
      rw [List.cons.injEq]
      constructor
      · rw [hcount]
      · apply List.map_congr_left
        intro j _
        simp only [Function.comp_apply, hcount]
        congr 2
        omega

/-- C5: the sender of a consistent broadcast with parameters `n`, `t`
broadcasts FINL exactly when its count of stored valid ECHO signatures (its
own included) first reaches `⌈(n+t+1)/2⌉`: the computed threshold
`(n+t+1+((n+t+1) mod 2))/2` equals `⌈(n+t+1)/2⌉ = (n+t+2)/2` for all
`n, t`, and over any sequence of valid echoes from pairwise-distinct
non-sender ranks `< n`, FINL is triggered at the `j`-th event (0-based)
exactly when `j + 2` (own signature plus `j+1` echoes) equals that
threshold. -/
theorem consistent_broadcast_final_threshold (n t rank sig : Nat)
    (events : List (Nat × Nat × Bool)) (hrank : rank < n)
    (hev : ∀ e ∈ events, e.1 < n ∧ e.1 ≠ rank ∧ e.2.2 = true)
    (hnodup : (events.map (fun e => e.1)).Nodup) :
    t_echo n t = (n + t + 2) / 2 ∧
    (runEchoes (cbAfterSendSend n t rank sig) events).2
      = (List.range events.length).map (fun j => decide (j + 2 = t_echo n t)) := by
  constructor
  · unfold t_echo; omega
  · have hlen : ((List.replicate n (none : Option Nat)).set rank (some sig)).length = n := by
      simp
    have hcount1 : getEchoNumber (cbAfterSendSend n t rank sig) = 1 := by
      have : (List.replicate n (none : Option Nat))[rank]? = some none := by
        simp [List.getElem?_replicate, hrank]
      have h2 := countSome_set_fresh (List.replicate n none) rank sig this
      have h0 : ((List.replicate n (none : Option Nat)).filter Option.isSome).length = 0 := by
        simp [List.filter_eq_nil_iff.mpr]
      simpa [getEchoNumber, cbAfterSendSend, h0] using h2
    have hfresh : ∀ e ∈ events, e.2.2 = true ∧
        (cbAfterSendSend n t rank sig).echos[e.1]? = some none := by
      intro e he
      obtain ⟨hlt, hne, hv⟩ := hev e he
      refine ⟨hv, ?_⟩
      rw [cbAfterSendSend]
      rw [getElemQ_set_ne _ rank e.1 (some sig) (fun hc => hne hc.symm)]
      simp [List.getElem?_replicate, hlt]
    rw [runEchoes_fires _ _ hfresh hnodup, hcount1]
    apply List.map_congr_left
    intro j _
    simp only [cbAfterSendSend]
    congr 2
    omega

/-- C5, witness: `n = 4`, `t = 1`, sender rank `0`; the threshold is
`⌈6/2⌉ = 3` and with valid echoes from ranks `1` then `2`, FINL fires
exactly at the second echo (own signature + 2 echoes = 3). -/
theorem consistent_broadcast_final_threshold_witness :
    t_echo 4 1 = (4 + 1 + 2) / 2 ∧
    (runEchoes (cbAfterSendSend 4 1 0 9) [(1, 11, true), (2, 12, true)]).2
      = (List.range 2).map (fun j => decide (j + 2 = t_echo 4 1)) :=
  consistent_broadcast_final_threshold 4 1 0 9 [(1, 11, true), (2, 12, true)]
    (by decide) (by decide) (by decide)

/-- C7, counterexample: the recombined checksum `0` and an address list of
two addresses with SHA-256 digests `2^255` each (so the reference sum is
`2^256 mod p_hash = 2^256`) DIFFER modulo `p_hash`, yet the check passes
(returns `ok`), because both render to the same 64-hex-digit string
(`2^256 ≡ 0 (mod 2^256)`): the comparison is not performed modulo
`p_hash`, so the claimed "iff" fails. -/
theorem shuffle_checksum_not_mod_phash :
    shuffleChecksumCheck 0 (fun _ => 2 ^ 255) [0, 1] = Except.ok 0 ∧
    (0 : Nat) % hash_order ≠
      ([0, 1].foldl (fun acc entry => (acc + (fun _ : Nat => 2 ^ 255) entry) % hash_order) 0)
        % hash_order := by
  constructor
  · rfl
  · decide

/-- C7 (amended): the peer raises `checksums_dont_match` if and only if the
recombined layer checksum and the reference checksum
`Σ SHA-256(addr_i) mod p_hash` differ modulo `hash_modulus = 2^256` — the
two values are each reduced modulo `p_hash` and then compared through their
64-hex-digit renderings, i.e. modulo `2^256`, not modulo `p_hash`. -/
theorem shuffle_checksum_check_iff_mod_2_256 (recombined : Nat) (sha256 : Nat → Nat)
    (addrs : List Nat) :
    shuffleChecksumCheck recombined sha256 addrs
        = Except.error (PyError.valueError "checksums_dont_match") ↔
      recombined % hash_modulus ≠
        (addrs.foldl (fun acc entry => (acc + sha256 entry) % hash_order) 0) % hash_modulus := by
  unfold shuffleChecksumCheck compareChecksums computeReferenceChecksum checksumToString
  split <;> rename_i h <;> simp_all

/-- C4, witness: an honest `n = 3`, `t = 1` instance with no complaints
resolves, and its qualified set `{0, 1, 2}` indeed has more than `t = 1`
members. -/
theorem jfdkg_resolved_qualified_gt_t_witness :
    (1 : Nat) < (⟨3, 1, [0, 1, 2], [false, false, false], [5, 6, 7], 97⟩ : DkgState).qualified.length :=
  jfdkg_resolved_qualified_gt_t ⟨3, 1, [0, 1, 2], [false, false, false], [5, 6, 7], 97⟩ none
    (⟨3, 1, [0, 1, 2], [false, false, false], [5, 6, 7], 97⟩, 18) (by rfl)


/-! ## Linear-algebra lemmas for the Gaussian elimination of
`_solve_equation_system` (claim C2) -/

theorem getD_set_self {α : Type} (l : List α) (i : Nat) (a d : α) (h : i < l.length) :
    (l.set i a).getD i d = a := by
  rw [List.getD_eq_getElem?_getD, List.getElem?_set_eq_of_lt a h]
  rfl

theorem getD_set_ne {α : Type} (l : List α) (i j : Nat) (a d : α) (h : i ≠ j) :
    (l.set i a).getD j d = l.getD j d := by
  rw [List.getD_eq_getElem?_getD, List.getElem?_set_ne h, ← List.getD_eq_getElem?_getD]

theorem range_map_getD {α : Type} (l : List α) (d : α) :
    (List.range l.length).map (fun (i : Nat) => l.getD i d) = l := by
  refine List.ext_getElem (by simp) (fun i h1 h2 => ?_)
  simp [List.getD_eq_getElem?_getD, List.getElem?_eq_getElem h2]

theorem getD_append_left {α : Type} (l1 l2 : List α) (j : Nat) (d : α)
    (h : j < l1.length) : (l1 ++ l2).getD j d = l1.getD j d := by
  rw [List.getD_eq_getElem?_getD, List.getElem?_append_left h, ← List.getD_eq_getElem?_getD]

theorem getD_append_right {α : Type} (l1 l2 : List α) (j : Nat) (d : α)
    (h : l1.length ≤ j) : (l1 ++ l2).getD j d = l2.getD (j - l1.length) d := by
  rw [List.getD_eq_getElem?_getD, List.getElem?_append_right h, ← List.getD_eq_getElem?_getD]

theorem getD_zipWith_add (q : Nat) (x y : List (ZMod q)) (j : Nat)
    (hx : j < x.length) (hy : j < y.length) :
    (List.zipWith (· + ·) x y).getD j 0 = x.getD j 0 + y.getD j 0 := by
  have hlen : j < (List.zipWith (· + ·) x y).length := by
    rw [List.length_zipWith]; omega
  rw [List.getD_eq_getElem?_getD, List.getElem?_eq_getElem hlen,
    List.getElem_zipWith, List.getD_eq_getElem?_getD, List.getElem?_eq_getElem hx,
    List.getD_eq_getElem?_getD, List.getElem?_eq_getElem hy]
  rfl

theorem list_eq_of_getD {α : Type} (n : Nat) (x y : List α) (d : α)
    (hx : x.length = n) (hy : y.length = n)
    (h : ∀ j, j < n → x.getD j d = y.getD j d) : x = y := by
  refine List.ext_getElem (by omega) (fun j h1 h2 => ?_)
  have := h j (by omega)
  rwa [List.getD_eq_getElem?_getD, List.getElem?_eq_getElem h1,
    List.getD_eq_getElem?_getD, List.getElem?_eq_getElem h2] at this

theorem mem_range_drop (n i k : Nat) :
    k ∈ (List.range n).drop i ↔ i ≤ k ∧ k < n := by
  constructor
  · intro h
    obtain ⟨m, hm, hget⟩ := List.getElem_of_mem h
    rw [List.getElem_drop, List.getElem_range] at hget
    rw [List.length_drop, List.length_range] at hm
    omega
  · intro ⟨h1, h2⟩
    have hm : k - i < ((List.range n).drop i).length := by
      rw [List.length_drop, List.length_range]; omega
    have : ((List.range n).drop i)[k - i] = k := by
      rw [List.getElem_drop, List.getElem_range]
      omega
    exact this ▸ List.getElem_mem hm

theorem fe_invert_mul (q : Nat) (hq : q.Prime) (b : ZMod q) (hb : b ≠ 0) :
    fe_invert q b * b = 1 := by
  haveI : Fact q.Prime := ⟨hq⟩
  have hval : b.val ≠ 0 := fun hc => hb ((ZMod.val_eq_zero b).mp hc)
  have ha : ((b.val : Int)) ≠ 0 := by exact_mod_cast hval
  have hvlt : b.val < q := ZMod.val_lt b
  have hnd : ¬ ((q : Int) ∣ (b.val : Int)) := by
    intro hc
    refine ha (Int.eq_zero_of_abs_lt_dvd hc ?_)
    rw [abs_of_nonneg (by positivity)]
    exact_mod_cast hvlt
  obtain ⟨_, hinv⟩ := invert_spec q hq (b.val : Int) ha hnd
  have hcast : (((b.val : Int)) : ZMod q) = b := by
    rw [Int.cast_natCast, ZMod.natCast_val, ZMod.cast_id]
  rw [hcast] at hinv
  unfold fe_invert
  exact hinv

theorem fe_invert_ne_zero (q : Nat) (hq : q.Prime) (b : ZMod q) (hb : b ≠ 0) :
    fe_invert q b ≠ 0 := by
  haveI : Fact q.Prime := ⟨hq⟩
  intro hc
  have := fe_invert_mul q hq b hb
  rw [hc, zero_mul] at this
  exact zero_ne_one this

theorem dotCols_zipWith_add (q n : Nat) (row x y : List (ZMod q))
    (hx : n ≤ x.length) (hy : n ≤ y.length) :
    dotCols q n row (List.zipWith (· + ·) x y)
      = dotCols q n row x + dotCols q n row y := by
  unfold dotCols
  rw [← Finset.sum_add_distrib]
  refine Finset.sum_congr rfl (fun j hj => ?_)
  have hjn := Finset.mem_range.mp hj
  rw [getD_zipWith_add q x y j (by omega) (by omega)]
  ring

theorem dotCols_elim_row (q n : Nat) (r1 r2 x : List (ZMod q)) (c : ZMod q) :
    dotCols q n
        ((List.range (n + 1)).map (fun (j : Nat) => r1.getD j 0 - c * r2.getD j 0)) x
      = dotCols q n r1 x - c * dotCols q n r2 x := by
  unfold dotCols
  rw [Finset.mul_sum, ← Finset.sum_sub_distrib]
  refine Finset.sum_congr rfl (fun j hj => ?_)
  rw [getD_map_range (n + 1) j _ 0 (by have := Finset.mem_range.mp hj; omega)]
  ring

theorem solvesRow_elim_iff (q n : Nat) (r1 r2 x : List (ZMod q)) (c : ZMod q)
    (h2 : SolvesRow q n r2 x) :
    SolvesRow q n
        ((List.range (n + 1)).map (fun (j : Nat) => r1.getD j 0 - c * r2.getD j 0)) x
      ↔ SolvesRow q n r1 x := by
  unfold SolvesRow at h2 ⊢
  rw [dotCols_elim_row, getD_map_range (n + 1) n _ 0 (by omega), h2]
  constructor
  · intro h; exact sub_left_inj.mp h
  · intro h; rw [h]

theorem dotCols_scaled_row (q n : Nat) (r x : List (ZMod q)) (p : ZMod q) :
    dotCols q n ((List.range (n + 1)).map (fun (j : Nat) => fe_div q (r.getD j 0) p)) x
      = fe_invert q p * dotCols q n r x := by
  unfold dotCols
  rw [Finset.mul_sum]
  refine Finset.sum_congr rfl (fun j hj => ?_)
  rw [getD_map_range (n + 1) j _ 0 (by have := Finset.mem_range.mp hj; omega)]
  simp only [fe_div]
  ring

theorem solvesRow_scaled_iff (q : Nat) (hq : q.Prime) (n : Nat) (r x : List (ZMod q))
    (p : ZMod q) (hp : p ≠ 0) :
    SolvesRow q n
        ((List.range (n + 1)).map (fun (j : Nat) => fe_div q (r.getD j 0) p)) x
      ↔ SolvesRow q n r x := by
  haveI : Fact q.Prime := ⟨hq⟩
  have hu := fe_invert_ne_zero q hq p hp
  unfold SolvesRow
  rw [dotCols_scaled_row, getD_map_range (n + 1) n _ 0 (by omega)]
  simp only [fe_div]
  rw [mul_comm (r.getD n 0) (fe_invert q p)]
  constructor
  · intro h; exact mul_left_cancel₀ hu h
  · intro h; rw [h]


theorem elimStep_length (q n i : Nat) (M : List (List (ZMod q))) (k : Nat) :
    (elimStep q n i M k).length = M.length := by
  unfold elimStep
  simp

theorem elimStep_getD_ne (q n i : Nat) (M : List (List (ZMod q))) (k m : Nat)
    (h : m ≠ k) : (elimStep q n i M k).getD m [] = M.getD m [] := by
  unfold elimStep
  exact getD_set_ne _ _ _ _ _ (fun hc => h hc.symm)

theorem elimStep_getD_self (q n i : Nat) (M : List (List (ZMod q))) (k : Nat)
    (hk : k < M.length) :
    (elimStep q n i M k).getD k [] = (List.range (n + 1)).map
      (fun (j : Nat) => (M.getD k []).getD j 0
        - (M.getD k []).getD i 0 * (M.getD i []).getD j 0) := by
  unfold elimStep
  exact getD_set_self _ _ _ _ hk

theorem elimStep_entry (q n i : Nat) (M : List (List (ZMod q))) (k j : Nat)
    (hk : k < M.length) (hj : j < n + 1) :
    ((elimStep q n i M k).getD k []).getD j 0
      = (M.getD k []).getD j 0 - (M.getD k []).getD i 0 * (M.getD i []).getD j 0 := by
  rw [elimStep_getD_self q n i M k hk, getD_map_range (n + 1) j _ 0 hj]

theorem elimStep_solves_iff (q n i : Nat) (M : List (List (ZMod q))) (k : Nat)
    (x : List (ZMod q)) (hki : k ≠ i) (hk : k < M.length) (hi : i < M.length) :
    SolvesSystem q n (elimStep q n i M k) x ↔ SolvesSystem q n M x := by
  have hlen : (elimStep q n i M k).length = M.length := elimStep_length q n i M k
  have hrow_i : (elimStep q n i M k).getD i [] = M.getD i [] :=
    elimStep_getD_ne q n i M k i (Ne.symm hki)
  constructor
  · intro h m hm
    by_cases hmk : m = k
    · subst hmk
      have hSi : SolvesRow q n (M.getD i []) x := by
        have := h i (by omega)
        rwa [hrow_i] at this
      have hSk := h m (by omega)
      rw [elimStep_getD_self q n i M m hm] at hSk
      exact (solvesRow_elim_iff q n (M.getD m []) (M.getD i []) x _ hSi).mp hSk
    · have := h m (by omega)
      rwa [elimStep_getD_ne q n i M k m hmk] at this
  · intro h m hm
    rw [hlen] at hm
    by_cases hmk : m = k
    · subst hmk
      rw [elimStep_getD_self q n i M m hm]
      exact (solvesRow_elim_iff q n (M.getD m []) (M.getD i []) x _ (h i hi)).mpr (h m hm)
    · rw [elimStep_getD_ne q n i M k m hmk]
      exact h m hm

theorem elimFold_facts (q n i : Nat) :
    ∀ (L : List Nat), (∀ k ∈ L, k ≠ i ∧ k < n) →
      ∀ M : List (List (ZMod q)), M.length = n → i < n →
        (L.foldl (elimStep q n i) M).length = n
        ∧ (∀ m, m ∉ L → (L.foldl (elimStep q n i) M).getD m [] = M.getD m [])
        ∧ (∀ x, SolvesSystem q n (L.foldl (elimStep q n i) M) x
            ↔ SolvesSystem q n M x) := by
  intro L
  induction L with
  | nil => intro _ M hM _; exact ⟨hM, fun m _ => rfl, fun x => Iff.rfl⟩
  | cons a L ih =>
      intro hL M hM hi
      obtain ⟨hai, han⟩ := hL a (List.mem_cons_self a L)
      have hstep_len : (elimStep q n i M a).length = n := by
        rw [elimStep_length]; exact hM
      obtain ⟨h1, h2, h3⟩ := ih (fun k hk => hL k (List.mem_cons_of_mem a hk))
        (elimStep q n i M a) hstep_len hi
      rw [List.foldl_cons]
      refine ⟨h1, ?_, ?_⟩
      · intro m hm
        have hma : m ≠ a := fun hc => hm (hc ▸ List.mem_cons_self a L)
        rw [h2 m (fun hc => hm (List.mem_cons_of_mem a hc)),
          elimStep_getD_ne q n i M a m hma]
      · intro x
        rw [h3 x, elimStep_solves_iff q n i M a x hai (by omega) (by omega)]

theorem swapRows_length (q : Nat) (Ab : List (List (ZMod q))) (i k : Nat) :
    (swapRows q Ab i k).length = Ab.length := by
  unfold swapRows
  simp

theorem swapRows_getD_fst (q : Nat) (Ab : List (List (ZMod q))) (i k : Nat)
    (hi : i < Ab.length) (hk : k < Ab.length) :
    (swapRows q Ab i k).getD i [] = Ab.getD k [] := by
  unfold swapRows
  by_cases hik : i = k
  · subst hik
    exact getD_set_self _ _ _ _ (by simpa using hi)
  · rw [getD_set_ne _ _ _ _ _ (Ne.symm hik), getD_set_self _ _ _ _ hi]

theorem swapRows_getD_snd (q : Nat) (Ab : List (List (ZMod q))) (i k : Nat)
    (hk : k < Ab.length) :
    (swapRows q Ab i k).getD k [] = Ab.getD i [] := by
  unfold swapRows
  exact getD_set_self _ _ _ _ (by simpa using hk)

theorem swapRows_getD_other (q : Nat) (Ab : List (List (ZMod q))) (i k m : Nat)
    (hmi : m ≠ i) (hmk : m ≠ k) :
    (swapRows q Ab i k).getD m [] = Ab.getD m [] := by
  unfold swapRows
  rw [getD_set_ne _ _ _ _ _ (Ne.symm hmk), getD_set_ne _ _ _ _ _ (Ne.symm hmi)]

theorem swapRows_solves_iff (q n : Nat) (Ab : List (List (ZMod q))) (i k : Nat)
    (x : List (ZMod q)) (hi : i < Ab.length) (hk : k < Ab.length) :
    SolvesSystem q n (swapRows q Ab i k) x ↔ SolvesSystem q n Ab x := by
  have hlen := swapRows_length q Ab i k
  constructor
  · intro h m hm
    by_cases hmi : m = i
    · subst hmi
      have := h k (by omega)
      rwa [swapRows_getD_snd q Ab m k hk] at this
    · by_cases hmk : m = k
      · subst hmk
        have := h i (by omega)
        rwa [swapRows_getD_fst q Ab i m hi hm] at this
      · have := h m (by omega)
        rwa [swapRows_getD_other q Ab i k m hmi hmk] at this
  · intro h m hm
    rw [hlen] at hm
    by_cases hmi : m = i
    · subst hmi
      rw [swapRows_getD_fst q Ab m k hi hk]
      exact h k hk
    · by_cases hmk : m = k
      · subst hmk
        rw [swapRows_getD_snd q Ab i m hm]
        exact h i hi
      · rw [swapRows_getD_other q Ab i k m hmi hmk]
        exact h m hm

theorem pivot_fold_some_absorb (q : Nat) (Ab : List (List (ZMod q))) (i : Nat) :
    ∀ (L : List Nat) (v : ZMod q) (k0 : Nat),
      ((L.foldl
        (fun acc k =>
          if acc.1.val < ((Ab.getD k []).getD i 0).val
          then ((Ab.getD k []).getD i 0, some k) else acc)
        (v, some k0)).2).isSome := by
  intro L
  induction L with
  | nil => intro v k0; rfl
  | cons a L ih =>
      intro v k0
      rw [List.foldl_cons]
      by_cases hlt : v.val < ((Ab.getD a []).getD i 0).val
      · rw [if_pos hlt]; exact ih _ _
      · rw [if_neg hlt]; exact ih _ _

theorem pivot_fold_none_iff (q : Nat) (hq0 : 0 < q) (Ab : List (List (ZMod q)))
    (i : Nat) :
    ∀ (L : List Nat),
      ((L.foldl
        (fun acc k =>
          if acc.1.val < ((Ab.getD k []).getD i 0).val
          then ((Ab.getD k []).getD i 0, some k) else acc)
        ((0 : ZMod q), (none : Option Nat))).2) = none
      ↔ ∀ k ∈ L, (Ab.getD k []).getD i 0 = 0 := by
  haveI : NeZero q := ⟨Nat.pos_iff_ne_zero.mp hq0⟩
  intro L
  induction L with
  | nil => simp
  | cons a L ih =>
      rw [List.foldl_cons]
      by_cases he : (Ab.getD a []).getD i 0 = 0
      · rw [he, if_neg (by simp)]
        rw [ih]
        constructor
        · intro h k hk
          rcases List.mem_cons.mp hk with hk1 | hk2
          · rw [hk1]; exact he
          · exact h k hk2
        · intro h k hk
          exact h k (List.mem_cons_of_mem a hk)
      · have hval : 0 < ((Ab.getD a []).getD i 0).val := by
          rcases Nat.eq_zero_or_pos ((Ab.getD a []).getD i 0).val with h0 | hp
          · exact absurd ((ZMod.val_eq_zero _).mp h0) he
          · exact hp
        rw [if_pos (by rwa [ZMod.val_zero])]
        constructor
        · intro h
          have := pivot_fold_some_absorb q Ab i L ((Ab.getD a []).getD i 0) a
          rw [h] at this
          exact absurd this (by simp)
        · intro h
          exact absurd (h a (List.mem_cons_self a L)) he

theorem pivot_fold_some_cases (q : Nat) (hq0 : 0 < q) (Ab : List (List (ZMod q)))
    (i : Nat) :
    ∀ (L : List Nat) (acc : ZMod q × Option Nat) (p : ZMod q) (k : Nat),
      L.foldl
        (fun acc k =>
          if acc.1.val < ((Ab.getD k []).getD i 0).val
          then ((Ab.getD k []).getD i 0, some k) else acc)
        acc = (p, some k) →
      acc = (p, some k) ∨ (k ∈ L ∧ (Ab.getD k []).getD i 0 = p ∧ p ≠ 0) := by
  haveI : NeZero q := ⟨Nat.pos_iff_ne_zero.mp hq0⟩
  intro L
  induction L with
  | nil => intro acc p k h; exact Or.inl h
  | cons a L ih =>
      intro acc p k h
      rw [List.foldl_cons] at h
      by_cases hlt : acc.1.val < ((Ab.getD a []).getD i 0).val
      · rw [if_pos hlt] at h
        rcases ih _ p k h with h1 | ⟨hmem, he, hp⟩
        · have hka : k = a := by
            have := congrArg Prod.snd h1
            simpa using this.symm
          have hpe : (Ab.getD a []).getD i 0 = p := by
            have := congrArg Prod.fst h1
            simpa using this
          subst hka
          refine Or.inr ⟨List.mem_cons_self k L, hpe, ?_⟩
          intro hc
          rw [hc] at hpe
          rw [hpe, ZMod.val_zero] at hlt
          omega
        · exact Or.inr ⟨List.mem_cons_of_mem a hmem, he, hp⟩
      · rw [if_neg hlt] at h
        rcases ih _ p k h with h1 | ⟨hmem, he, hp⟩
        · exact Or.inl h1
        · exact Or.inr ⟨List.mem_cons_of_mem a hmem, he, hp⟩

theorem findPivot_none_iff (q : Nat) (hq0 : 0 < q) (Ab : List (List (ZMod q)))
    (i n : Nat) :
    (findPivot q Ab i n).2 = none
      ↔ ∀ k, i ≤ k → k < n → (Ab.getD k []).getD i 0 = 0 := by
  unfold findPivot
  rw [pivot_fold_none_iff q hq0 Ab i]
  constructor
  · intro h k h1 h2
    exact h k ((mem_range_drop n i k).mpr ⟨h1, h2⟩)
  · intro h k hk
    obtain ⟨h1, h2⟩ := (mem_range_drop n i k).mp hk
    exact h k h1 h2

theorem findPivot_some_facts (q : Nat) (hq0 : 0 < q) (Ab : List (List (ZMod q)))
    (i n : Nat) (p : ZMod q) (k : Nat) (h : findPivot q Ab i n = (p, some k)) :
    i ≤ k ∧ k < n ∧ (Ab.getD k []).getD i 0 = p ∧ p ≠ 0 := by
  unfold findPivot at h
  rcases pivot_fold_some_cases q hq0 Ab i _ _ p k h with h1 | ⟨hmem, he, hp⟩
  · exact absurd (congrArg Prod.snd h1) (by simp)
  · obtain ⟨h1, h2⟩ := (mem_range_drop n i k).mp hmem
    exact ⟨h1, h2, he, hp⟩

theorem elimStep_good (q n i : Nat) (M : List (List (ZMod q))) (k : Nat)
    (hg : GoodShape q n M) : GoodShape q n (elimStep q n i M k) := by
  obtain ⟨hlen, hrows⟩ := hg
  refine ⟨by rw [elimStep_length]; exact hlen, fun m hm => ?_⟩
  by_cases hmk : m = k
  · subst hmk
    rw [elimStep_getD_self q n i M m (by omega)]
    simp
  · rw [elimStep_getD_ne q n i M k m hmk]
    exact hrows m hm

theorem elimFold_good (q n i : Nat) :
    ∀ (L : List Nat) (M : List (List (ZMod q))), GoodShape q n M →
      GoodShape q n (L.foldl (elimStep q n i) M) := by
  intro L
  induction L with
  | nil => intro M hg; exact hg
  | cons a L ih =>
      intro M hg
      rw [List.foldl_cons]
      exact ih _ (elimStep_good q n i M a hg)

theorem swapRows_good (q n : Nat) (Ab : List (List (ZMod q))) (i k : Nat)
    (hi : i < n) (hk : k < n) (hg : GoodShape q n Ab) :
    GoodShape q n (swapRows q Ab i k) := by
  obtain ⟨hlen, hrows⟩ := hg
  refine ⟨by rw [swapRows_length]; exact hlen, fun m hm => ?_⟩
  by_cases hmi : m = i
  · subst hmi
    rw [swapRows_getD_fst q Ab m k (by omega) (by omega)]
    exact hrows k hk
  · by_cases hmk : m = k
    · subst hmk
      rw [swapRows_getD_snd q Ab i m (by omega)]
      exact hrows i hi
    · rw [swapRows_getD_other q Ab i k m hmi hmk]
      exact hrows m hm

theorem elimFold_fwd_shape (q n i : Nat) (hin : i < n) :
    ∀ (L : List Nat), (∀ k ∈ L, i < k ∧ k < n) → L.Nodup →
      ∀ M : List (List (ZMod q)), M.length = n →
        (∀ j, j < i → (M.getD i []).getD j 0 = 0) →
        (M.getD i []).getD i 0 = 1 →
        BelowZ q n i M →
        BelowZ q n i (L.foldl (elimStep q n i) M)
        ∧ (∀ k ∈ L, ((L.foldl (elimStep q n i) M).getD k []).getD i 0 = 0) := by
  intro L
  induction L with
  | nil => intro _ _ M _ _ _ hbz; exact ⟨hbz, by simp⟩
  | cons a L ih =>
      intro hL hnd M hM hrow0 hrow1 hbz
      obtain ⟨hai, han⟩ := hL a (List.mem_cons_self a L)
      have hMlen : a < M.length := by omega
      have hrow_i_eq : (elimStep q n i M a).getD i [] = M.getD i [] :=
        elimStep_getD_ne q n i M a i (by omega)
      have hstep_len : (elimStep q n i M a).length = n := by
        rw [elimStep_length]; exact hM
      have hbz' : BelowZ q n i (elimStep q n i M a) := by
        intro k j hj hjk hkn
        by_cases hka : k = a
        · subst hka
          rw [elimStep_entry q n i M k j hMlen (by omega)]
          rw [hbz k j hj (by omega) hkn, hrow0 j hj]
          ring
        · rw [elimStep_getD_ne q n i M a k hka]
          exact hbz k j hj hjk hkn
      have hcola : ((elimStep q n i M a).getD a []).getD i 0 = 0 := by
        rw [elimStep_entry q n i M a i hMlen (by omega), hrow1]
        ring
      have hLsub : ∀ k ∈ L, i < k ∧ k < n :=
        fun k hk => hL k (List.mem_cons_of_mem a hk)
      obtain ⟨hbzR, hcolR⟩ := ih hLsub (List.Nodup.of_cons hnd) (elimStep q n i M a)
        hstep_len (by rw [hrow_i_eq]; exact hrow0) (by rw [hrow_i_eq]; exact hrow1) hbz'
      rw [List.foldl_cons]
      refine ⟨hbzR, fun k hk => ?_⟩
      rcases List.mem_cons.mp hk with hk1 | hk2
      · subst hk1
        have hnotin : k ∉ L := (List.nodup_cons.mp hnd).1
        obtain ⟨_, h2, _⟩ := elimFold_facts q n i L
          (fun m hm => ⟨by have := hLsub m hm; omega, (hLsub m hm).2⟩)
          (elimStep q n i M k) hstep_len hin
        rw [h2 k hnotin]
        exact hcola
      · exact hcolR k hk2

theorem forwardStep_some_facts (q : Nat) (hq : q.Prime) (n i : Nat) (hin : i < n)
    (Ab Ab' : List (List (ZMod q))) (hg : GoodShape q n Ab)
    (hbz : BelowZ q n i Ab) (hd1 : DiagOne q n i Ab)
    (h : forwardStep q n i Ab = some Ab') :
    GoodShape q n Ab' ∧ BelowZ q n (i + 1) Ab' ∧ DiagOne q n (i + 1) Ab'
      ∧ (∀ x, SolvesSystem q n Ab' x ↔ SolvesSystem q n Ab x) := by
  have hq0 : 0 < q := hq.pos
  unfold forwardStep at h
  rcases hfp : findPivot q Ab i n with ⟨p, pind⟩
  rw [hfp] at h
  cases pind with
  | none => simp at h
  | some k =>
      simp only [Option.some.injEq] at h
      obtain ⟨hik, hkn, hpe, hpne⟩ := findPivot_some_facts q hq0 Ab i n p k hfp
      have hAblen : Ab.length = n := hg.1
      -- the swapped matrix
      set Ab1 := swapRows q Ab i k with hAb1
      have hg1 : GoodShape q n Ab1 := swapRows_good q n Ab i k hin hkn hg
      have hbz1 : BelowZ q n i Ab1 := by
        intro k' j hj hjk' hk'n
        by_cases hk'i : k' = i
        · subst hk'i
          rw [swapRows_getD_fst q Ab k' k (by omega) (by omega)]
          exact hbz k j hj (by omega) hkn
        · by_cases hk'k : k' = k
          · subst hk'k
            rw [swapRows_getD_snd q Ab i k' (by omega)]
            exact hbz i j hj (by omega) hin
          · rw [swapRows_getD_other q Ab i k k' hk'i hk'k]
            exact hbz k' j hj hjk' hk'n
      have hd11 : DiagOne q n i Ab1 := by
        intro m hm
        rw [swapRows_getD_other q Ab i k m (by omega) (by omega)]
        exact hd1 m hm
      have hrow1i : Ab1.getD i [] = Ab.getD k [] :=
        swapRows_getD_fst q Ab i k (by omega) (by omega)
      have hsw_iff : ∀ x, SolvesSystem q n Ab1 x ↔ SolvesSystem q n Ab x :=
        fun x => swapRows_solves_iff q n Ab i k x (by omega) (by omega)
      -- the normalized row
      set rowi := (List.range (n + 1)).map
        (fun (j : Nat) => fe_div q ((Ab1.getD i []).getD j 0) p) with hrowi
      have hrowi_getD : ∀ j, j < n + 1 →
          rowi.getD j 0 = fe_div q ((Ab1.getD i []).getD j 0) p :=
        fun j hj => getD_map_range (n + 1) j _ 0 hj
      have hrowi_zero : ∀ j, j < i → rowi.getD j 0 = 0 := by
        intro j hj
        rw [hrowi_getD j (by omega), hrow1i, hbz k j hj (by omega) hkn]
        simp [fe_div]
      have hrowi_diag : rowi.getD i 0 = 1 := by
        rw [hrowi_getD i (by omega), hrow1i, hpe]
        simp only [fe_div]
        rw [mul_comm]
        exact fe_invert_mul q hq p hpne
      -- the matrix with the normalized row
      set Ab2 := Ab1.set i rowi with hAb2
      have hAb1len : Ab1.length = n := hg1.1
      have hg2 : GoodShape q n Ab2 := by
        refine ⟨by rw [hAb2, List.length_set]; exact hAb1len, fun m hm => ?_⟩
        by_cases hmi : m = i
        · subst hmi
          rw [hAb2, getD_set_self _ _ _ _ (by omega)]
          simp [hrowi]
        · rw [hAb2, getD_set_ne _ _ _ _ _ (fun hc => hmi hc.symm)]
          exact hg1.2 m hm
      have hAb2row_i : Ab2.getD i [] = rowi :=
        getD_set_self _ _ _ _ (by omega)
      have hAb2row_ne : ∀ m, m ≠ i → Ab2.getD m [] = Ab1.getD m [] :=
        fun m hm => getD_set_ne _ _ _ _ _ (fun hc => hm hc.symm)
      have hbz2 : BelowZ q n i Ab2 := by
        intro k' j hj hjk' hk'n
        by_cases hk'i : k' = i
        · subst hk'i
          rw [hAb2row_i]
          exact hrowi_zero j hj
        · rw [hAb2row_ne k' hk'i]
          exact hbz1 k' j hj hjk' hk'n
      have hd12 : DiagOne q n i Ab2 := by
        intro m hm
        rw [hAb2row_ne m (by omega)]
        exact hd11 m hm
      have hAb2_iff : ∀ x, SolvesSystem q n Ab2 x ↔ SolvesSystem q n Ab1 x := by
        intro x
        constructor
        · intro hs m hm
          by_cases hmi : m = i
          · subst hmi
            have := hs m (by rw [hAb2, List.length_set]; omega)
            rw [hAb2row_i, hrowi] at this
            exact (solvesRow_scaled_iff q hq n (Ab1.getD m []) x p hpne).mp this
          · have := hs m (by rw [hAb2, List.length_set]; omega)
            rwa [hAb2row_ne m hmi] at this
        · intro hs m hm
          rw [hAb2, List.length_set] at hm
          by_cases hmi : m = i
          · subst hmi
            rw [hAb2row_i, hrowi]
            exact (solvesRow_scaled_iff q hq n (Ab1.getD m []) x p hpne).mpr (hs m hm)
          · rw [hAb2row_ne m hmi]
            exact hs m hm
      -- the elimination fold
      have hL : ∀ m ∈ (List.range n).drop (i + 1), i < m ∧ m < n := by
        intro m hm
        have := (mem_range_drop n (i + 1) m).mp hm
        omega
      have hL' : ∀ m ∈ (List.range n).drop (i + 1), m ≠ i ∧ m < n := by
        intro m hm
        have := hL m hm
        omega
      have hnd : ((List.range n).drop (i + 1)).Nodup :=
        (List.nodup_range n).sublist (List.drop_sublist (i + 1) (List.range n))
      obtain ⟨hflen, hfrows, hfiff⟩ :=
        elimFold_facts q n i ((List.range n).drop (i + 1)) hL' Ab2 hg2.1 hin
      obtain ⟨hfbz, hfcol⟩ := elimFold_fwd_shape q n i hin ((List.range n).drop (i + 1))
        hL hnd Ab2 hg2.1 (by rw [hAb2row_i]; exact hrowi_zero)
        (by rw [hAb2row_i]; exact hrowi_diag) hbz2
      have hAb' : Ab' = ((List.range n).drop (i + 1)).foldl (elimStep q n i) Ab2 := h.symm
      subst hAb'
      have hgR : GoodShape q n (((List.range n).drop (i + 1)).foldl (elimStep q n i) Ab2) :=
        elimFold_good q n i _ Ab2 hg2
      have hrowR_i : (((List.range n).drop (i + 1)).foldl (elimStep q n i) Ab2).getD i []
          = rowi := by
        rw [hfrows i (fun hc => by have := hL i hc; omega), hAb2row_i]
      refine ⟨hgR, ?_, ?_, ?_⟩
      · intro k' j hj hjk' hk'n
        rcases Nat.lt_or_ge j i with hji | hji
        · exact hfbz k' j hji hjk' hk'n
        · have hjeq : j = i := by omega
          subst hjeq
          exact hfcol k' ((mem_range_drop n (j + 1) k').mpr ⟨by omega, hk'n⟩)
      · intro m hm
        rcases Nat.lt_or_ge m i with hmi | hmi
        · rw [hfrows m (fun hc => by have := hL m hc; omega),
            hAb2row_ne m (by omega)]
          exact hd11 m hmi
        · have hmeq : m = i := by omega
          subst hmeq
          rw [hrowR_i]
          exact hrowi_diag
      · intro x
        rw [hfiff x, hAb2_iff x, hsw_iff x]

theorem homoTail_length (q n : Nat) (A : List (List (ZMod q))) (i : Nat) (hin : i < n) :
    ∀ s, (homoTail q n A i s).length = n - i + s := by
  intro s
  induction s with
  | zero => simp [homoTail]; omega
  | succ s ih => simp [homoTail, ih]; omega

theorem homoTail_peel (q n : Nat) (A : List (List (ZMod q))) (i : Nat) :
    ∀ t s m, (homoTail q n A i (s + t)).getD (t + m) 0
      = (homoTail q n A i s).getD m 0 := by
  intro t
  induction t with
  | zero => intro s m; simp
  | succ t ih =>
      intro s m
      have h1 : s + (t + 1) = (s + t) + 1 := by omega
      have h2 : (t + 1) + m = (t + m) + 1 := by omega
      rw [h1, h2]
      show (homoTail q n A i ((s + t) + 1)).getD ((t + m) + 1) 0 = _
      rw [show homoTail q n A i ((s + t) + 1)
            = (-(∑ j ∈ Finset.range (homoTail q n A i (s + t)).length,
                (A.getD (i - ((s + t) + 1)) []).getD (i - ((s + t) + 1) + 1 + j) 0
                  * (homoTail q n A i (s + t)).getD j 0))
              :: homoTail q n A i (s + t) from rfl]
      rw [List.getD_cons_succ]
      exact ih s m

theorem homoTail_getD_diag (q n : Nat) (A : List (List (ZMod q))) (i : Nat) :
    (homoTail q n A i i).getD i 0 = 1 := by
  have := homoTail_peel q n A i i 0 0
  simp only [Nat.zero_add, Nat.add_zero] at this
  rw [this]
  rfl

theorem homoTail_getD_above (q n : Nat) (A : List (List (ZMod q))) (i j : Nat)
    (hij : i < j) : (homoTail q n A i i).getD j 0 = 0 := by
  have hpeel := homoTail_peel q n A i i 0 (j - i)
  simp only [Nat.zero_add] at hpeel
  rw [show j = i + (j - i) by omega, hpeel]
  have hji : j - i = (j - i - 1) + 1 := by omega
  rw [hji]
  show ((1 : ZMod q) :: List.replicate (n - i - 1) 0).getD ((j - i - 1) + 1) 0 = 0
  rw [List.getD_cons_succ]
  rcases Nat.lt_or_ge (j - i - 1) (n - i - 1) with hlt | hge
  · exact getD_replicate (n - i - 1) (j - i - 1) 0 0 hlt
  · exact List.getD_eq_default _ _ (by simp; omega)

theorem homoTail_head_eq (q n : Nat) (A : List (List (ZMod q))) (i : Nat)
    (hin : i < n) (k : Nat) (hk : k < i) :
    (homoTail q n A i i).getD k 0
      = -(∑ j ∈ Finset.range (n - k - 1),
          (A.getD k []).getD (k + 1 + j) 0 * (homoTail q n A i i).getD (k + 1 + j) 0) := by
  have hpeel0 := homoTail_peel q n A i k ((i - k - 1) + 1) 0
  simp only [Nat.add_zero] at hpeel0
  rw [show (i - k - 1) + 1 + k = i by omega] at hpeel0
  rw [hpeel0]
  rw [show homoTail q n A i ((i - k - 1) + 1)
        = (-(∑ j ∈ Finset.range (homoTail q n A i (i - k - 1)).length,
            (A.getD (i - ((i - k - 1) + 1)) []).getD (i - ((i - k - 1) + 1) + 1 + j) 0
              * (homoTail q n A i (i - k - 1)).getD j 0))
          :: homoTail q n A i (i - k - 1) from rfl]
  rw [List.getD_cons_zero]
  congr 1
  have hik : i - ((i - k - 1) + 1) = k := by omega
  rw [homoTail_length q n A i hin (i - k - 1), hik]
  rw [show n - i + (i - k - 1) = n - k - 1 by omega]
  refine Finset.sum_congr rfl (fun j hj => ?_)
  congr 1
  have hpeelj := homoTail_peel q n A i (k + 1) (i - k - 1) j
  rw [show (i - k - 1) + (k + 1) = i by omega] at hpeelj
  rw [show (k + 1) + j = k + 1 + j from rfl] at hpeelj
  exact hpeelj.symm

theorem homo_dot_zero (q n : Nat) (Ab : List (List (ZMod q))) (i : Nat)
    (hin : i < n) (hbz : BelowZ q n i Ab) (hd1 : DiagOne q n i Ab)
    (hcol : ∀ k, i ≤ k → k < n → (Ab.getD k []).getD i 0 = 0)
    (k : Nat) (hk : k < n) :
    dotCols q n (Ab.getD k []) (homoTail q n Ab i i) = 0 := by
  unfold dotCols
  rcases Nat.lt_or_ge k i with hki | hki
  · -- echelon rows above the failed column: back-substituted entries
    have hsplit := Finset.sum_range_add
      (fun j => (Ab.getD k []).getD j 0 * (homoTail q n Ab i i).getD j 0)
      (k + 1) (n - k - 1)
    rw [show (k + 1) + (n - k - 1) = n by omega] at hsplit
    rw [hsplit, Finset.sum_range_succ]
    have hz : ∑ j ∈ Finset.range k,
        (Ab.getD k []).getD j 0 * (homoTail q n Ab i i).getD j 0 = 0 :=
      Finset.sum_eq_zero (fun j hj => by
        rw [hbz k j (by have := Finset.mem_range.mp hj; omega)
          (Finset.mem_range.mp hj) hk]
        ring)
    rw [hz, hd1 k hki, homoTail_head_eq q n Ab i hin k hki]
    ring
  · -- rows at and below the failed column
    refine Finset.sum_eq_zero (fun j hj => ?_)
    have hjn := Finset.mem_range.mp hj
    rcases Nat.lt_or_ge j i with hji | hji
    · rw [hbz k j hji (by omega) hk]
      ring
    · rcases Nat.eq_or_lt_of_le hji with hje | hjgt
      · rw [← hje, hcol k hki hk]
        ring
      · rw [homoTail_getD_above q n Ab i j hjgt]
        ring

theorem stuck_column_not_unique (q : Nat) (hq : q.Prime) (n i : Nat) (hin : i < n)
    (Ab : List (List (ZMod q))) (hlen : Ab.length = n)
    (hbz : BelowZ q n i Ab) (hd1 : DiagOne q n i Ab)
    (hcol : ∀ k, i ≤ k → k < n → (Ab.getD k []).getD i 0 = 0) :
    ¬ UniqueSol q n Ab := by
  haveI : Fact q.Prime := ⟨hq⟩
  rintro ⟨x, ⟨hxlen, hxs⟩, huniq⟩
  have hdlen : (homoTail q n Ab i i).length = n := by
    rw [homoTail_length q n Ab i hin i]; omega
  set d := homoTail q n Ab i i with hd
  set x' := List.zipWith (· + ·) x d with hx'
  have hx'len : x'.length = n := by
    rw [hx', List.length_zipWith, hxlen, hdlen]; omega
  have hx's : SolvesSystem q n Ab x' := by
    intro m hm
    have hrow := hxs m hm
    unfold SolvesRow at hrow ⊢
    rw [hx', dotCols_zipWith_add q n _ x d (by omega) (by omega), hrow,
      homo_dot_zero q n Ab i hin hbz hd1 hcol m (by omega)]
    ring
  have heq := huniq x' hx'len hx's
  have hgetD : x'.getD i 0 = x.getD i 0 + 1 := by
    rw [hx', getD_zipWith_add q x d i (by omega) (by omega), hd,
      homoTail_getD_diag q n Ab i]
  rw [heq] at hgetD
  have h10 : (1 : ZMod q) = 0 := by
    have := hgetD
    nth_rewrite 1 [show x.getD i 0 = x.getD i 0 + 0 by ring] at this
    exact (add_left_cancel this).symm
  exact one_ne_zero h10

theorem forwardStep_none_not_unique (q : Nat) (hq : q.Prime) (n i : Nat)
    (hin : i < n) (Ab : List (List (ZMod q))) (hlen : Ab.length = n)
    (hbz : BelowZ q n i Ab) (hd1 : DiagOne q n i Ab)
    (h : forwardStep q n i Ab = none) : ¬ UniqueSol q n Ab := by
  unfold forwardStep at h
  rcases hfp : findPivot q Ab i n with ⟨p, pind⟩
  rw [hfp] at h
  cases pind with
  | some k => simp at h
  | none =>
      have hcol := (findPivot_none_iff q hq.pos Ab i n).mp
        (by rw [hfp])
      exact stuck_column_not_unique q hq n i hin Ab hlen hbz hd1 hcol

theorem uniqueSol_congr (q n : Nat) (A B : List (List (ZMod q)))
    (h : ∀ x, SolvesSystem q n A x ↔ SolvesSystem q n B x) :
    UniqueSol q n A ↔ UniqueSol q n B := by
  constructor
  · rintro ⟨x, ⟨hxl, hxs⟩, hu⟩
    exact ⟨x, ⟨hxl, (h x).mp hxs⟩, fun y hyl hys => hu y hyl ((h y).mpr hys)⟩
  · rintro ⟨x, ⟨hxl, hxs⟩, hu⟩
    exact ⟨x, ⟨hxl, (h x).mpr hxs⟩, fun y hyl hys => hu y hyl ((h y).mp hys)⟩

theorem forwardLoop_spec (q : Nat) (hq : q.Prime) (n : Nat) :
    ∀ (steps i : Nat) (Ab : List (List (ZMod q))), steps + i = n →
      GoodShape q n Ab → BelowZ q n i Ab → DiagOne q n i Ab →
      (∀ Ab', forwardLoop q n steps i Ab = some Ab' →
        GoodShape q n Ab' ∧ BelowZ q n n Ab' ∧ DiagOne q n n Ab'
          ∧ (∀ x, SolvesSystem q n Ab' x ↔ SolvesSystem q n Ab x))
      ∧ (forwardLoop q n steps i Ab = none → ¬ UniqueSol q n Ab) := by
  intro steps
  induction steps with
  | zero =>
      intro i Ab hsum hg hbz hd1
      have hieq : i = n := by omega
      subst hieq
      constructor
      · intro Ab' h
        have hAb : Ab' = Ab := by
          have : some Ab = some Ab' := h
          exact (Option.some.injEq _ _ ▸ this).symm
        subst hAb
        exact ⟨hg, hbz, hd1, fun x => Iff.rfl⟩
      · intro h
        exact absurd h (by simp [forwardLoop])
  | succ steps ih =>
      intro i Ab hsum hg hbz hd1
      have hin : i < n := by omega
      have hdef : forwardLoop q n (steps + 1) i Ab
          = match forwardStep q n i Ab with
            | none => none
            | some Ab1 => forwardLoop q n steps (i + 1) Ab1 := rfl
      rcases hfs : forwardStep q n i Ab with _ | Ab1
      · constructor
        · intro Ab' h
          rw [hdef, hfs] at h
          exact absurd h (by simp)
        · intro _
          exact forwardStep_none_not_unique q hq n i hin Ab hg.1 hbz hd1 hfs
      · obtain ⟨hg1, hbz1, hd11, hiff1⟩ :=
          forwardStep_some_facts q hq n i hin Ab Ab1 hg hbz hd1 hfs
        obtain ⟨hsome, hnone⟩ := ih (i + 1) Ab1 (by omega) hg1 hbz1 hd11
        constructor
        · intro Ab' h
          rw [hdef, hfs] at h
          obtain ⟨a, b, c, d⟩ := hsome Ab' h
          exact ⟨a, b, c, fun x => (d x).trans (hiff1 x)⟩
        · intro h
          rw [hdef, hfs] at h
          intro hu
          exact hnone h ((uniqueSol_congr q n Ab1 Ab hiff1).mpr hu)

theorem forward_spec (q : Nat) (hq : q.Prime) (n : Nat) (Ab : List (List (ZMod q)))
    (hg : GoodShape q n Ab) :
    (∀ Ab', forward q n Ab = some Ab' →
      GoodShape q n Ab' ∧ BelowZ q n n Ab' ∧ DiagOne q n n Ab'
        ∧ (∀ x, SolvesSystem q n Ab' x ↔ SolvesSystem q n Ab x))
    ∧ (forward q n Ab = none → ¬ UniqueSol q n Ab) := by
  have hbz : BelowZ q n 0 Ab := fun k j hj _ _ => absurd hj (Nat.not_lt_zero j)
  have hd1 : DiagOne q n 0 Ab := fun m hm => absurd hm (Nat.not_lt_zero m)
  exact forwardLoop_spec q hq n n 0 Ab (by omega) hg hbz hd1

theorem elimFold_bwd_shape (q n m : Nat) (hmn : m < n) :
    ∀ (L : List Nat), (∀ k ∈ L, k < m) → L.Nodup →
      ∀ M : List (List (ZMod q)), M.length = n →
        BelowZ q n n M → DiagOne q n n M → AboveZ q n (m + 1) M →
        BelowZ q n n (L.foldl (elimStep q n m) M)
        ∧ DiagOne q n n (L.foldl (elimStep q n m) M)
        ∧ AboveZ q n (m + 1) (L.foldl (elimStep q n m) M)
        ∧ (∀ k ∈ L, ((L.foldl (elimStep q n m) M).getD k []).getD m 0 = 0) := by
  intro L
  induction L with
  | nil => intro _ _ M _ hbz hd1 haz; exact ⟨hbz, hd1, haz, by simp⟩
  | cons a L ih =>
      intro hL hnd M hM hbz hd1 haz
      have ham : a < m := hL a (List.mem_cons_self a L)
      have haM : a < M.length := by omega
      have hstep_len : (elimStep q n m M a).length = n := by
        rw [elimStep_length]; exact hM
      have hbz' : BelowZ q n n (elimStep q n m M a) := by
        intro k j hj hjk hkn
        by_cases hka : k = a
        · subst hka
          rw [elimStep_entry q n m M k j haM (by omega)]
          rw [hbz k j hj hjk hkn, hbz m j (by omega) (by omega) hmn]
          ring
        · rw [elimStep_getD_ne q n m M a k hka]
          exact hbz k j hj hjk hkn
      have hd1' : DiagOne q n n (elimStep q n m M a) := by
        intro k hk
        by_cases hka : k = a
        · subst hka
          rw [elimStep_entry q n m M k k haM (by omega)]
          rw [hd1 k hk, hbz m k (by omega) (by omega) hmn]
          ring
        · rw [elimStep_getD_ne q n m M a k hka]
          exact hd1 k hk
      have haz' : AboveZ q n (m + 1) (elimStep q n m M a) := by
        intro k j hmj hjn hkj
        by_cases hka : k = a
        · subst hka
          rw [elimStep_entry q n m M k j haM (by omega)]
          rw [haz k j hmj hjn hkj, haz m j hmj hjn (by omega)]
          ring
        · rw [elimStep_getD_ne q n m M a k hka]
          exact haz k j hmj hjn hkj
      have hcola : ((elimStep q n m M a).getD a []).getD m 0 = 0 := by
        rw [elimStep_entry q n m M a m haM (by omega), hd1 m hmn]
        ring
      have hLsub : ∀ k ∈ L, k < m := fun k hk => hL k (List.mem_cons_of_mem a hk)
      obtain ⟨hbzR, hd1R, hazR, hcolR⟩ := ih hLsub (List.Nodup.of_cons hnd)
        (elimStep q n m M a) hstep_len hbz' hd1' haz'
      rw [List.foldl_cons]
      refine ⟨hbzR, hd1R, hazR, fun k hk => ?_⟩
      rcases List.mem_cons.mp hk with hk1 | hk2
      · subst hk1
        have hnotin : k ∉ L := (List.nodup_cons.mp hnd).1
        obtain ⟨_, h2, _⟩ := elimFold_facts q n m L
          (fun j hj => ⟨by have := hLsub j hj; omega, by have := hLsub j hj; omega⟩)
          (elimStep q n m M k) hstep_len hmn
        rw [h2 k hnotin]
        exact hcola
      · exact hcolR k hk2

theorem backward_fold_spec (q n : Nat) :
    ∀ (m : Nat), m ≤ n →
      ∀ M : List (List (ZMod q)), GoodShape q n M →
        BelowZ q n n M → DiagOne q n n M → AboveZ q n m M →
        GoodShape q n ((List.range m).reverse.foldl
            (fun M2 i => (List.range i).foldl (elimStep q n i) M2) M)
        ∧ BelowZ q n n ((List.range m).reverse.foldl
            (fun M2 i => (List.range i).foldl (elimStep q n i) M2) M)
        ∧ DiagOne q n n ((List.range m).reverse.foldl
            (fun M2 i => (List.range i).foldl (elimStep q n i) M2) M)
        ∧ AboveZ q n 0 ((List.range m).reverse.foldl
            (fun M2 i => (List.range i).foldl (elimStep q n i) M2) M)
        ∧ (∀ x, SolvesSystem q n ((List.range m).reverse.foldl
            (fun M2 i => (List.range i).foldl (elimStep q n i) M2) M) x
            ↔ SolvesSystem q n M x) := by
  intro m
  induction m with
  | zero =>
      intro _ M hg hbz hd1 haz
      exact ⟨hg, hbz, hd1, haz, fun x => Iff.rfl⟩
  | succ m ih =>
      intro hmn M hg hbz hd1 haz
      have hmn' : m < n := by omega
      have hrev : (List.range (m + 1)).reverse = m :: (List.range m).reverse := by
        rw [List.range_succ, List.reverse_append]
        rfl
      rw [hrev, List.foldl_cons]
      set M1 := (List.range m).foldl (elimStep q n m) M with hM1
      have hLm : ∀ k ∈ List.range m, k < m := fun k hk => List.mem_range.mp hk
      obtain ⟨hbz1, hd11, haz1, hcol1⟩ := elimFold_bwd_shape q n m hmn'
        (List.range m) hLm (List.nodup_range m) M hg.1 hbz hd1 haz
      have hg1 : GoodShape q n M1 := elimFold_good q n m (List.range m) M hg
      obtain ⟨_, _, hiff1⟩ := elimFold_facts q n m (List.range m)
        (fun k hk => ⟨by have := hLm k hk; omega, by have := hLm k hk; omega⟩)
        M hg.1 hmn'
      have haz1' : AboveZ q n m M1 := by
        intro k j hmj hjn hkj
        rcases Nat.eq_or_lt_of_le hmj with hje | hjgt
        · rw [← hje] at hkj ⊢
          exact hcol1 k (List.mem_range.mpr hkj)
        · exact haz1 k j hjgt hjn hkj
      obtain ⟨a, b, c, d, e⟩ := ih (by omega) M1 hg1 hbz1 hd11 haz1'
      exact ⟨a, b, c, d, fun x => (e x).trans (hiff1 x)⟩

theorem backward_spec (q n : Nat) (Ab : List (List (ZMod q)))
    (hg : GoodShape q n Ab) (hbz : BelowZ q n n Ab) (hd1 : DiagOne q n n Ab) :
    GoodShape q n (backward q n Ab) ∧ BelowZ q n n (backward q n Ab)
      ∧ DiagOne q n n (backward q n Ab) ∧ AboveZ q n 0 (backward q n Ab)
      ∧ (∀ x, SolvesSystem q n (backward q n Ab) x ↔ SolvesSystem q n Ab x) := by
  have haz : AboveZ q n n Ab := fun k j hj hjn _ => absurd (by omega : n < n) (by omega)
  exact backward_fold_spec q n n (by omega) Ab hg hbz hd1 haz

theorem solveAb_good (q : Nat) (matrix : List (List (ZMod q)))
    (solution : List (ZMod q)) :
    GoodShape q matrix.length (solveAb q matrix solution) := by
  constructor
  · simp [solveAb]
  · intro i hi
    unfold solveAb
    rw [getD_map_range _ _ _ _ hi]
    simp

theorem identity_solution_getD (q n : Nat) (M : List (List (ZMod q)))
    (hlen : M.length = n) (hbz : BelowZ q n n M) (hd1 : DiagOne q n n M)
    (haz : AboveZ q n 0 M) (y : List (ZMod q)) (hys : SolvesSystem q n M y)
    (i : Nat) (hi : i < n) :
    y.getD i 0 = (M.getD i []).getD n 0 := by
  have hrow := hys i (by omega)
  unfold SolvesRow dotCols at hrow
  rw [← hrow, Finset.sum_eq_single i
    (fun b hb hbi => ?_) (fun hni => absurd (Finset.mem_range.mpr hi) hni)]
  · rw [hd1 i hi, one_mul]
  · have hbn := Finset.mem_range.mp hb
    rcases Nat.lt_or_ge b i with hblt | hbge
    · rw [hbz i b (by omega) hblt hi]
      ring
    · rw [haz i b (by omega) hbn (by omega)]
      ring

theorem solve_spec (q : Nat) (hq : q.Prime) (matrix : List (List (ZMod q)))
    (solution : List (ZMod q)) :
    (∀ x, solve_equation_system q matrix solution = some x →
        x.length = matrix.length
        ∧ SolvesSystem q matrix.length (solveAb q matrix solution) x
        ∧ ∀ y, y.length = matrix.length →
            SolvesSystem q matrix.length (solveAb q matrix solution) y → y = x)
    ∧ (solve_equation_system q matrix solution = none →
        ¬ UniqueSol q matrix.length (solveAb q matrix solution)) := by
  have hg := solveAb_good q matrix solution
  have hdef : solve_equation_system q matrix solution
      = match forward q matrix.length (solveAb q matrix solution) with
        | none => none
        | some Ab1 => some ((List.range matrix.length).map
            (fun (i : Nat) => ((backward q matrix.length Ab1).getD i []).getD
              (((backward q matrix.length Ab1).getD i []).length - 1) 0)) := rfl
  obtain ⟨hfsome, hfnone⟩ := forward_spec q hq matrix.length
    (solveAb q matrix solution) hg
  rcases hF : forward q matrix.length (solveAb q matrix solution) with _ | Ab1
  · refine ⟨?_, ?_⟩
    · intro x hx
      rw [hdef, hF] at hx
      exact absurd hx (by simp)
    · intro _
      exact hfnone hF
  · obtain ⟨hg1, hbz1, hd11, hiff1⟩ := hfsome Ab1 hF
    obtain ⟨hg2, hbz2, hd12, haz2, hiff2⟩ :=
      backward_spec q matrix.length Ab1 hg1 hbz1 hd11
    refine ⟨?_, ?_⟩
    · intro x hx
      rw [hdef, hF] at hx
      have hxval : x = (List.range matrix.length).map
          (fun (i : Nat) => ((backward q matrix.length Ab1).getD i []).getD
            (((backward q matrix.length Ab1).getD i []).length - 1) 0) := by
        simpa using hx.symm
      have hxlen : x.length = matrix.length := by rw [hxval]; simp
      have hxget : ∀ i, i < matrix.length →
          x.getD i 0 = ((backward q matrix.length Ab1).getD i []).getD
            matrix.length 0 := by
        intro i hi
        rw [hxval, getD_map_range _ _ _ 0 hi, hg2.2 i hi, Nat.add_sub_cancel]
      have hxs : SolvesSystem q matrix.length (backward q matrix.length Ab1) x := by
        intro m hm
        have hmn : m < matrix.length := by rw [hg2.1] at hm; exact hm
        unfold SolvesRow dotCols
        rw [Finset.sum_eq_single m
          (fun b hb hbm => ?_) (fun hnm => absurd (Finset.mem_range.mpr hmn) hnm)]
        · rw [hd12 m hmn, one_mul]
          exact hxget m hmn
        · have hbn := Finset.mem_range.mp hb
          rcases Nat.lt_or_ge b m with hblt | hbge
          · rw [hbz2 m b (by omega) hblt hmn]
            ring
          · rw [haz2 m b (by omega) hbn (by omega)]
            ring
      refine ⟨hxlen, (hiff1 x).mp ((hiff2 x).mp hxs), ?_⟩
      intro y hyl hys
      have hysB : SolvesSystem q matrix.length (backward q matrix.length Ab1) y :=
        (hiff2 y).mpr ((hiff1 y).mpr hys)
      refine list_eq_of_getD matrix.length y x 0 hyl hxlen (fun j hj => ?_)
      rw [identity_solution_getD q matrix.length (backward q matrix.length Ab1)
        hg2.1 hbz2 hd12 haz2 y hysB j hj, hxget j hj]
    · intro hnone
      rw [hdef, hF] at hnone
      exact absurd hnone (by simp)

theorem construct_fst_length (q : Nat) (S : List (Int × Int)) (th : Nat) :
    (construct_equation_system q S th).1.length = S.length := by
  unfold construct_equation_system
  simp

theorem construct_fst_getD (q : Nat) (S : List (Int × Int)) (th : Nat) (i : Nat)
    (hi : i < S.length) :
    (construct_equation_system q S th).1.getD i []
      = (List.range (S.length - th)).map
          (fun (j : Nat) => ((((i : Int) + 1) ^ j : Int) : ZMod q))
        ++ (List.range th).map
          (fun (j : Nat) => ((-(S.getD i (0, 0)).2 * ((i : Int) + 1) ^ j : Int) : ZMod q)) := by
  have hform : (construct_equation_system q S th).1
      = (List.range S.length).map (fun (i : Nat) =>
          (List.range (S.length - th)).map
            (fun (j : Nat) => ((((i : Int) + 1) ^ j : Int) : ZMod q))
          ++ (List.range th).map
            (fun (j : Nat) =>
              ((-(S.getD i (0, 0)).2 * ((i : Int) + 1) ^ j : Int) : ZMod q))) := rfl
  rw [hform, getD_map_range _ _ _ _ hi]

theorem construct_snd_getD (q : Nat) (S : List (Int × Int)) (th : Nat) (i : Nat)
    (hi : i < S.length) :
    (construct_equation_system q S th).2.getD i 0
      = (((S.getD i (0, 0)).2 * ((i : Int) + 1) ^ th : Int) : ZMod q) := by
  have hform : (construct_equation_system q S th).2
      = (List.range S.length).map (fun (i : Nat) =>
          (((S.getD i (0, 0)).2 * ((i : Int) + 1) ^ th : Int) : ZMod q)) := rfl
  rw [hform, getD_map_range _ _ _ _ hi]

theorem bw_solvesRow_iff (q : Nat) (n th : Nat) (hth : th ≤ n) (S : List (Int × Int))
    (hS : S.length = n) (i : Nat) (hi : i < n) (x : List (ZMod q)) :
    SolvesRow q n ((solveAb q (construct_equation_system q S th).1
        (construct_equation_system q S th).2).getD i []) x
      ↔ (∑ j ∈ Finset.range (n - th), ((i : ZMod q) + 1) ^ j * x.getD j 0)
          - (((S.getD i (0, 0)).2 : Int) : ZMod q)
            * (∑ j ∈ Finset.range th, ((i : ZMod q) + 1) ^ j * x.getD (n - th + j) 0)
        = (((S.getD i (0, 0)).2 : Int) : ZMod q) * ((i : ZMod q) + 1) ^ th := by
  have hMlen : (construct_equation_system q S th).1.length = n := by
    rw [construct_fst_length, hS]
  have hrow0 : (solveAb q (construct_equation_system q S th).1
        (construct_equation_system q S th).2).getD i []
      = (List.range n).map
          (fun (j : Nat) => ((construct_equation_system q S th).1.getD i []).getD j 0)
        ++ [(construct_equation_system q S th).2.getD i 0] := by
    unfold solveAb
    rw [hMlen, getD_map_range _ _ _ _ hi]
  have hMrow := construct_fst_getD q S th i (by omega)
  rw [hS] at hMrow
  have hentry1 : ∀ j, j < n - th →
      (((construct_equation_system q S th).1.getD i []).getD j 0)
        = ((i : ZMod q) + 1) ^ j := by
    intro j hj
    rw [hMrow, getD_append_left _ _ _ _ (by simp [hj]), getD_map_range _ _ _ _ hj]
    push_cast
    ring
  have hentry2 : ∀ j, j < th →
      (((construct_equation_system q S th).1.getD i []).getD (n - th + j) 0)
        = -((((S.getD i (0, 0)).2 : Int) : ZMod q)) * ((i : ZMod q) + 1) ^ j := by
    intro j hj
    rw [hMrow, getD_append_right _ _ _ _ (by simp)]
    have hidx : n - th + j - ((List.range (n - th)).map
        (fun (j : Nat) => ((((i : Int) + 1) ^ j : Int) : ZMod q))).length = j := by
      simp
    rw [hidx, getD_map_range _ _ _ _ hj]
    push_cast
    ring
  unfold SolvesRow
  rw [hrow0]
  have hrhs : (((List.range n).map
        (fun (j : Nat) => ((construct_equation_system q S th).1.getD i []).getD j 0))
        ++ [(construct_equation_system q S th).2.getD i 0]).getD n 0
      = (((S.getD i (0, 0)).2 : Int) : ZMod q) * ((i : ZMod q) + 1) ^ th := by
    rw [getD_append_right _ _ _ _ (by simp), construct_snd_getD q S th i (by omega)]
    have : (n - ((List.range n).map
        (fun (j : Nat) => ((construct_equation_system q S th).1.getD i []).getD j 0)).length) = 0 := by
      simp
    rw [this, List.getD_cons_zero]
    push_cast
    ring
  rw [hrhs]
  have hdot : dotCols q n (((List.range n).map
        (fun (j : Nat) => ((construct_equation_system q S th).1.getD i []).getD j 0))
        ++ [(construct_equation_system q S th).2.getD i 0]) x
      = (∑ j ∈ Finset.range (n - th), ((i : ZMod q) + 1) ^ j * x.getD j 0)
        - (((S.getD i (0, 0)).2 : Int) : ZMod q)
          * (∑ j ∈ Finset.range th,
              ((i : ZMod q) + 1) ^ j * x.getD (n - th + j) 0) := by
    unfold dotCols
    have hcongr : ∀ j ∈ Finset.range n,
        ((((List.range n).map
          (fun (j : Nat) => ((construct_equation_system q S th).1.getD i []).getD j 0))
          ++ [(construct_equation_system q S th).2.getD i 0]).getD j 0) * x.getD j 0
        = (((construct_equation_system q S th).1.getD i []).getD j 0) * x.getD j 0 := by
      intro j hj
      have hjn := Finset.mem_range.mp hj
      rw [getD_append_left _ _ _ _ (by simp [hjn]), getD_map_range _ _ _ _ hjn]
    rw [Finset.sum_congr rfl hcongr]
    have hsplit := Finset.sum_range_add
      (fun j => (((construct_equation_system q S th).1.getD i []).getD j 0) * x.getD j 0)
      (n - th) th
    rw [show (n - th) + th = n by omega] at hsplit
    rw [hsplit]
    have hpart1 : ∑ j ∈ Finset.range (n - th),
        (((construct_equation_system q S th).1.getD i []).getD j 0) * x.getD j 0
        = ∑ j ∈ Finset.range (n - th), ((i : ZMod q) + 1) ^ j * x.getD j 0 :=
      Finset.sum_congr rfl (fun j hj => by
        rw [hentry1 j (Finset.mem_range.mp hj)])
    have hpart2 : ∑ j ∈ Finset.range th,
        (((construct_equation_system q S th).1.getD i []).getD (n - th + j) 0)
          * x.getD (n - th + j) 0
        = -((((S.getD i (0, 0)).2 : Int) : ZMod q)
            * ∑ j ∈ Finset.range th, ((i : ZMod q) + 1) ^ j * x.getD (n - th + j) 0) := by
      rw [Finset.mul_sum, ← Finset.sum_neg_distrib]
      refine Finset.sum_congr rfl (fun j hj => ?_)
      rw [hentry2 j (Finset.mem_range.mp hj)]
      ring
    rw [hpart1, hpart2, ← sub_eq_add_neg]
  rw [hdot]

theorem honestShares_length (q n : Nat) (f : Polynomial (ZMod q)) :
    (honestShares q n f).length = n := by
  simp [honestShares]

theorem honestShares_getD (q n : Nat) (f : Polynomial (ZMod q)) (i : Nat)
    (hi : i < n) :
    (honestShares q n f).getD i (0, 0)
      = ((i : Int) + 1, ((f.eval ((i : ZMod q) + 1)).val : Int)) := by
  unfold honestShares
  rw [getD_map_range _ _ _ _ hi]

theorem honestShares_val_cast (q n : Nat) [NeZero q] (f : Polynomial (ZMod q))
    (i : Nat) (hi : i < n) :
    ((((honestShares q n f).getD i (0, 0)).2 : Int) : ZMod q)
      = f.eval ((i : ZMod q) + 1) := by
  rw [honestShares_getD q n f i hi]
  rw [Int.cast_natCast, ZMod.natCast_val, ZMod.cast_id]

theorem eval_sum_range_pow (q : Nat) (f : Polynomial (ZMod q)) (m : Nat)
    (hm : f.natDegree < m) (z : ZMod q) :
    ∑ j ∈ Finset.range m, z ^ j * f.coeff j = f.eval z := by
  rw [Polynomial.eval_eq_sum_range' hm z]
  exact Finset.sum_congr rfl (fun j _ => mul_comm _ _)

theorem bw_system_not_unique (q : Nat) (hq : q.Prime) (t n th : Nat)
    (f : Polynomial (ZMod q)) (hf : f.natDegree ≤ t) (hn : 2 * t + 1 ≤ n)
    (hth1 : 1 ≤ th) (htht : th ≤ t) :
    ¬ UniqueSol q n (solveAb q (construct_equation_system q (honestShares q n f) th).1
        (construct_equation_system q (honestShares q n f) th).2) := by
  haveI : Fact q.Prime := ⟨hq⟩
  have hthn : th < n := by omega
  have hSlen : (honestShares q n f).length = n := honestShares_length q n f
  have hAblen : (solveAb q (construct_equation_system q (honestShares q n f) th).1
      (construct_equation_system q (honestShares q n f) th).2).length = n := by
    unfold solveAb
    rw [List.length_map, List.length_range, construct_fst_length, hSlen]
  rintro ⟨x, ⟨hxlen, hxs⟩, huniq⟩
  set delta := (List.range (n - th)).map (fun (j : Nat) => f.coeff j)
    ++ ((1 : ZMod q) :: List.replicate (th - 1) 0) with hdelta
  have hdlen : delta.length = n := by
    rw [hdelta]
    simp
    omega
  have hd_low : ∀ j, j < n - th → delta.getD j 0 = f.coeff j := by
    intro j hj
    rw [hdelta, getD_append_left _ _ _ _ (by simp [hj]), getD_map_range _ _ _ _ hj]
  have hd_pivot : delta.getD (n - th) 0 = 1 := by
    rw [hdelta, getD_append_right _ _ _ _ (by simp)]
    simp
  have hd_high : ∀ j, 1 ≤ j → j < th → delta.getD (n - th + j) 0 = 0 := by
    intro j h1 h2
    rw [hdelta, getD_append_right _ _ _ _ (by simp)]
    have hidx : n - th + j - ((List.range (n - th)).map
        (fun (j : Nat) => f.coeff j)).length = j := by simp
    rw [hidx, show j = (j - 1) + 1 by omega, List.getD_cons_succ]
    rcases Nat.lt_or_ge (j - 1) (th - 1) with hlt | hge
    · exact getD_replicate _ _ _ _ hlt
    · exact List.getD_eq_default _ _ (by simp; omega)
  set x' := List.zipWith (· + ·) x delta with hx'
  have hx'len : x'.length = n := by
    rw [hx', List.length_zipWith, hxlen, hdlen]
    omega
  have hx's : SolvesSystem q n (solveAb q
      (construct_equation_system q (honestShares q n f) th).1
      (construct_equation_system q (honestShares q n f) th).2) x' := by
    intro i hi
    have hin : i < n := by omega
    have hrow := hxs i hi
    rw [bw_solvesRow_iff q n th (by omega) (honestShares q n f) hSlen i hin] at hrow ⊢
    have hsum1 : ∑ j ∈ Finset.range (n - th), ((i : ZMod q) + 1) ^ j * x'.getD j 0
        = (∑ j ∈ Finset.range (n - th), ((i : ZMod q) + 1) ^ j * x.getD j 0)
          + f.eval ((i : ZMod q) + 1) := by
      have hterm : ∀ j ∈ Finset.range (n - th),
          ((i : ZMod q) + 1) ^ j * x'.getD j 0
            = ((i : ZMod q) + 1) ^ j * x.getD j 0
              + ((i : ZMod q) + 1) ^ j * delta.getD j 0 := by
        intro j hj
        have hjn := Finset.mem_range.mp hj
        rw [hx', getD_zipWith_add q x delta j (by omega) (by omega)]
        ring
      rw [Finset.sum_congr rfl hterm, Finset.sum_add_distrib]
      congr 1
      rw [← eval_sum_range_pow q f (n - th) (by omega) ((i : ZMod q) + 1)]
      exact Finset.sum_congr rfl (fun j hj => by
        rw [hd_low j (Finset.mem_range.mp hj)])
    have hsum2 : ∑ j ∈ Finset.range th, ((i : ZMod q) + 1) ^ j * x'.getD (n - th + j) 0
        = (∑ j ∈ Finset.range th, ((i : ZMod q) + 1) ^ j * x.getD (n - th + j) 0)
          + 1 := by
      have hterm : ∀ j ∈ Finset.range th,
          ((i : ZMod q) + 1) ^ j * x'.getD (n - th + j) 0
            = ((i : ZMod q) + 1) ^ j * x.getD (n - th + j) 0
              + ((i : ZMod q) + 1) ^ j * delta.getD (n - th + j) 0 := by
        intro j hj
        have hjn := Finset.mem_range.mp hj
        rw [hx', getD_zipWith_add q x delta (n - th + j) (by omega) (by omega)]
        ring
      rw [Finset.sum_congr rfl hterm, Finset.sum_add_distrib]
      congr 1
      have hone : ∑ j ∈ Finset.range th,
          ((i : ZMod q) + 1) ^ j * delta.getD (n - th + j) 0 = 1 := by
        rw [Finset.sum_eq_single 0
          (fun b hb hb0 => ?_) (fun h0 => absurd (Finset.mem_range.mpr (by omega)) h0)]
        · rw [Nat.add_zero, hd_pivot]
          ring
        · rw [hd_high b (by omega) (Finset.mem_range.mp hb)]
          ring
      rw [hone]
    rw [hsum1, hsum2, honestShares_val_cast q n f i hin]
    rw [honestShares_val_cast q n f i hin] at hrow
    linear_combination hrow
  have heq := huniq x' hx'len hx's
  have hgetD : x'.getD (n - th) 0 = x.getD (n - th) 0 + 1 := by
    rw [hx', getD_zipWith_add q x delta (n - th) (by omega) (by omega), hd_pivot]
  rw [heq] at hgetD
  have h10 : (1 : ZMod q) = 0 := by
    nth_rewrite 1 [show x.getD (n - th) 0 = x.getD (n - th) 0 + 0 by ring] at hgetD
    exact (add_left_cancel hgetD).symm
  exact one_ne_zero h10

theorem bw_solves_zero_iff (q : Nat) (hq : q.Prime) (t n : Nat)
    (f : Polynomial (ZMod q)) (hn : 2 * t + 1 ≤ n) (i : Nat) (hin : i < n)
    (y : List (ZMod q)) :
    SolvesRow q n ((solveAb q (construct_equation_system q (honestShares q n f) 0).1
        (construct_equation_system q (honestShares q n f) 0).2).getD i []) y
      ↔ ∑ j ∈ Finset.range n, ((i : ZMod q) + 1) ^ j * y.getD j 0
          = f.eval ((i : ZMod q) + 1) := by
  haveI : Fact q.Prime := ⟨hq⟩
  rw [bw_solvesRow_iff q n 0 (by omega) (honestShares q n f)
    (honestShares_length q n f) i hin y]
  rw [honestShares_val_cast q n f i hin]
  simp [Nat.sub_zero]

theorem bw_system_unique_at_zero (q : Nat) (hq : q.Prime) (t n : Nat)
    (f : Polynomial (ZMod q)) (hf : f.natDegree ≤ t) (hn : 2 * t + 1 ≤ n)
    (hqn : n < q) :
    (((List.range n).map (fun (j : Nat) => f.coeff j)).length = n
      ∧ SolvesSystem q n
          (solveAb q (construct_equation_system q (honestShares q n f) 0).1
            (construct_equation_system q (honestShares q n f) 0).2)
          ((List.range n).map (fun (j : Nat) => f.coeff j)))
    ∧ (∀ y, y.length = n →
        SolvesSystem q n
          (solveAb q (construct_equation_system q (honestShares q n f) 0).1
            (construct_equation_system q (honestShares q n f) 0).2) y →
        y = (List.range n).map (fun (j : Nat) => f.coeff j)) := by
  haveI : Fact q.Prime := ⟨hq⟩
  have hSlen : (honestShares q n f).length = n := honestShares_length q n f
  have hAblen : (solveAb q (construct_equation_system q (honestShares q n f) 0).1
      (construct_equation_system q (honestShares q n f) 0).2).length = n := by
    unfold solveAb
    rw [List.length_map, List.length_range, construct_fst_length, hSlen]
  have hblen : ((List.range n).map (fun (j : Nat) => f.coeff j)).length = n := by simp
  constructor
  · refine ⟨hblen, ?_⟩
    intro i hi
    have hin : i < n := by omega
    rw [bw_solves_zero_iff q hq t n f hn i hin]
    rw [← eval_sum_range_pow q f n (by omega) ((i : ZMod q) + 1)]
    exact Finset.sum_congr rfl (fun j hj => by
      rw [getD_map_range _ _ _ 0 (Finset.mem_range.mp hj)])
  · intro y hyl hys
    have hyeq : ∀ i, i < n →
        ∑ j ∈ Finset.range n, ((i : ZMod q) + 1) ^ j * y.getD j 0
          = f.eval ((i : ZMod q) + 1) := by
      intro i hin
      have := hys i (by omega)
      rwa [bw_solves_zero_iff q hq t n f hn i hin] at this
    set g := ∑ j ∈ Finset.range n,
      Polynomial.C (y.getD j 0 - f.coeff j) * Polynomial.X ^ j with hg
    have hgeval : ∀ i, i < n → g.eval ((i : ZMod q) + 1) = 0 := by
      intro i hin
      rw [hg, Polynomial.eval_finset_sum]
      have hterm : ∀ j ∈ Finset.range n,
          (Polynomial.C (y.getD j 0 - f.coeff j) * Polynomial.X ^ j).eval
              ((i : ZMod q) + 1)
            = ((i : ZMod q) + 1) ^ j * y.getD j 0
              - f.coeff j * ((i : ZMod q) + 1) ^ j := by
        intro j _
        rw [Polynomial.eval_mul, Polynomial.eval_C, Polynomial.eval_pow,
          Polynomial.eval_X]
        ring
      rw [Finset.sum_congr rfl hterm, Finset.sum_sub_distrib, hyeq i hin,
        ← Polynomial.eval_eq_sum_range' (by omega : f.natDegree < n)]
      ring
    have hgdeg : g.natDegree < n := by
      have hle : g.natDegree ≤ n - 1 := by
        rw [hg]
        refine Polynomial.natDegree_sum_le_of_forall_le _ _ (fun j hj => ?_)
        refine (Polynomial.natDegree_C_mul_le _ _).trans ?_
        rw [Polynomial.natDegree_X_pow]
        have := Finset.mem_range.mp hj
        omega
      omega
    have hinj : Set.InjOn (fun (i : Nat) => (i : ZMod q) + 1)
        (Finset.range n) := by
      intro a ha b hb hab
      simp only [Finset.coe_range, Set.mem_Iio] at ha hb
      have : (a : ZMod q) = (b : ZMod q) := by
        have := hab
        simpa using this
      exact zmod_coe_inj q a b (by omega) (by omega) this
    have hcard : ((Finset.range n).image (fun (i : Nat) => (i : ZMod q) + 1)).card
        = n := by
      rw [Finset.card_image_of_injOn hinj, Finset.card_range]
    have hg0 : g = 0 := by
      refine Polynomial.eq_zero_of_natDegree_lt_card_of_eval_eq_zero' g
        ((Finset.range n).image (fun (i : Nat) => (i : ZMod q) + 1))
        (fun w hw => ?_) (by rw [hcard]; exact hgdeg)
      obtain ⟨i, hi, rfl⟩ := Finset.mem_image.mp hw
      exact hgeval i (Finset.mem_range.mp hi)
    have hcoeff : ∀ k, k < n → y.getD k 0 = f.coeff k := by
      intro k hk
      have hck : g.coeff k = y.getD k 0 - f.coeff k := by
        rw [hg, Polynomial.finset_sum_coeff]
        have hterm : ∀ j ∈ Finset.range n,
            (Polynomial.C (y.getD j 0 - f.coeff j) * Polynomial.X ^ j).coeff k
              = if k = j then y.getD j 0 - f.coeff j else 0 := by
          intro j _
          rw [Polynomial.coeff_C_mul, Polynomial.coeff_X_pow]
          rcases eq_or_ne k j with he | hne
          · rw [if_pos he, if_pos he, mul_one]
          · rw [if_neg hne, if_neg hne, mul_zero]
        rw [Finset.sum_congr rfl hterm, Finset.sum_ite_eq,
          if_pos (Finset.mem_range.mpr hk)]
      rw [hg0, Polynomial.coeff_zero] at hck
      have := hck.symm
      rwa [sub_eq_zero] at this
    refine list_eq_of_getD n y _ 0 hyl hblen (fun j hj => ?_)
    rw [hcoeff j hj, getD_map_range _ _ _ 0 hj]

theorem bw_loop_honest (q : Nat) (hq : q.Prime) (t n : Nat) (f : Polynomial (ZMod q))
    (hf : f.natDegree ≤ t) (hn : 2 * t + 1 ≤ n) (hqn : n < q) :
    ∀ th, th ≤ t →
      bw_loop q (honestShares q n f) th
        = Except.ok ((List.range n).map (fun (j : Nat) => f.coeff j), 0) := by
  intro th
  induction th with
  | zero =>
      intro _
      have hdef : bw_loop q (honestShares q n f) 0
          = match solve_equation_system q
                (construct_equation_system q (honestShares q n f) 0).1
                (construct_equation_system q (honestShares q n f) 0).2 with
            | some x => Except.ok (x, 0)
            | none => Except.error
                (PyError.valueError "unexpected_matrix_singularity") := rfl
      obtain ⟨⟨hblen, hbsolves⟩, huniq⟩ := bw_system_unique_at_zero q hq t n f hf hn hqn
      have hMl : (construct_equation_system q (honestShares q n f) 0).1.length = n := by
        rw [construct_fst_length, honestShares_length]
      obtain ⟨hsome, hnone⟩ := solve_spec q hq
        (construct_equation_system q (honestShares q n f) 0).1
        (construct_equation_system q (honestShares q n f) 0).2
      rw [hMl] at hsome hnone
      rcases hsol : solve_equation_system q
          (construct_equation_system q (honestShares q n f) 0).1
          (construct_equation_system q (honestShares q n f) 0).2 with _ | x
      · exact absurd ⟨(List.range n).map (fun (j : Nat) => f.coeff j),
          ⟨hblen, hbsolves⟩, huniq⟩ (hnone hsol)
      · obtain ⟨hxlen, hxsol, _⟩ := hsome x hsol
        have hxb := huniq x hxlen hxsol
        rw [hdef, hsol, hxb]
  | succ th ih =>
      intro hle
      have hdef : bw_loop q (honestShares q n f) (th + 1)
          = match solve_equation_system q
                (construct_equation_system q (honestShares q n f) (th + 1)).1
                (construct_equation_system q (honestShares q n f) (th + 1)).2 with
            | some x => Except.ok (x, th + 1)
            | none => bw_loop q (honestShares q n f) th := rfl
      have hnotu := bw_system_not_unique q hq t n (th + 1) f hf hn
        (by omega) (by omega)
      have hMl : (construct_equation_system q (honestShares q n f) (th + 1)).1.length
          = n := by
        rw [construct_fst_length, honestShares_length]
      obtain ⟨hsome, _⟩ := solve_spec q hq
        (construct_equation_system q (honestShares q n f) (th + 1)).1
        (construct_equation_system q (honestShares q n f) (th + 1)).2
      rw [hMl] at hsome
      rcases hsol : solve_equation_system q
          (construct_equation_system q (honestShares q n f) (th + 1)).1
          (construct_equation_system q (honestShares q n f) (th + 1)).2 with _ | x
      · rw [hdef, hsol]
        exact ih (by omega)
      · obtain ⟨hxlen, hxsol, hxuniq⟩ := hsome x hsol
        exact absurd ⟨x, ⟨hxlen, hxsol⟩, hxuniq⟩ hnotu

theorem fe_invert_one (q : Nat) (hq : q.Prime) : fe_invert q (1 : ZMod q) = 1 := by
  haveI : Fact q.Prime := ⟨hq⟩
  have := fe_invert_mul q hq 1 one_ne_zero
  rwa [mul_one] at this

theorem split_factors_zero (q : Nat) (coeffs : List (ZMod q)) :
    split_factors q coeffs 0 = (coeffs, [1]) := by
  unfold split_factors
  simp

theorem poly_div_by_one (q : Nat) (hq : q.Prime) :
    ∀ (fuel : Nat) (Qt Pt : List (ZMod q)), Qt.length < fuel →
      poly_div_loop q [1] fuel Qt Pt = Except.ok (Pt ++ Qt, []) := by
  intro fuel
  induction fuel with
  | zero => intro Qt Pt h; omega
  | succ fuel ih =>
      intro Qt Pt h
      cases Qt with
      | nil =>
          show (if (1 : Nat) ≤ ([] : List (ZMod q)).length then _ else
            Except.ok (Pt, ([] : List (ZMod q)))) = _
          rw [if_neg (by simp)]
          simp
      | cons q0 rest =>
          have hc : fe_div q q0 1 = q0 := by
            rw [fe_div, fe_invert_one q hq, mul_one]
          have hQt1 : (List.range (q0 :: rest).length).map
              (fun (i : Nat) =>
                if i < ([1] : List (ZMod q)).length
                then (q0 :: rest).getD i 0 - fe_div q q0 1 * ([1] : List (ZMod q)).getD i 0
                else (q0 :: rest).getD i 0)
              = 0 :: rest := by
            refine list_eq_of_getD (rest.length + 1) _ _ 0 (by simp) (by simp)
              (fun j hj => ?_)
            rw [getD_map_range _ _ _ 0 (by simpa using hj)]
            cases j with
            | zero =>
                rw [if_pos (by simp)]
                simp [hc]
            | succ j =>
                rw [if_neg (by simp)]
                simp
          show (if (1 : Nat) ≤ (q0 :: rest).length then _ else _) = _
          rw [if_pos (by simp)]
          show (if ((List.range (q0 :: rest).length).map
              (fun (i : Nat) =>
                if i < ([1] : List (ZMod q)).length
                then (q0 :: rest).getD i 0 - fe_div q q0 1 * ([1] : List (ZMod q)).getD i 0
                else (q0 :: rest).getD i 0)).getD 0 0 = 0
            then poly_div_loop q [1] fuel ((List.range (q0 :: rest).length).map
              (fun (i : Nat) =>
                if i < ([1] : List (ZMod q)).length
                then (q0 :: rest).getD i 0 - fe_div q q0 1 * ([1] : List (ZMod q)).getD i 0
                else (q0 :: rest).getD i 0)).tail (Pt ++ [fe_div q q0 1])
            else Except.error (PyError.valueError "Error in polynomial division.")) = _
          rw [hQt1]
          rw [if_pos (by simp)]
          have hrest : ((0 : ZMod q) :: rest).tail = rest := rfl
          rw [hrest, hc, ih rest (Pt ++ [q0]) (by simp at h ⊢; omega)]
          rw [← List.append_cons]

theorem strip_leading_getLast? (q : Nat) :
    ∀ l : List (ZMod q),
      (strip_leading_zeros_keep1 q l).getLast? = l.getLast? := by
  intro l
  induction l with
  | nil => rfl
  | cons a tail ih =>
      cases tail with
      | nil => rfl
      | cons b rest =>
          have hdef : strip_leading_zeros_keep1 q (a :: b :: rest)
              = if a = 0 then strip_leading_zeros_keep1 q (b :: rest)
                else a :: b :: rest := rfl
          rw [hdef]
          by_cases ha : a = 0
          · rw [if_pos ha, ih, List.getLast?_cons_cons]
          · rw [if_neg ha]

theorem strip_Pt_getLast? (q t : Nat) :
    ∀ l : List (ZMod q), (strip_Pt q t l).getLast? = l.getLast? := by
  intro l
  induction l with
  | nil => rfl
  | cons a rest ih =>
      have hdef : strip_Pt q t (a :: rest)
          = if t + 1 < rest.length + 1 ∧ a = 0 then strip_Pt q t rest
            else a :: rest := rfl
      rw [hdef]
      by_cases hcond : t + 1 < rest.length + 1 ∧ a = 0
      · rw [if_pos hcond, ih]
        cases rest with
        | nil => exact absurd hcond.1 (by simp)
        | cons c rest2 => rw [List.getLast?_cons_cons]
      · rw [if_neg hcond]

theorem get_P_by_one (q : Nat) (hq : q.Prime) (Q : List (ZMod q)) (t : Nat) :
    get_P q Q [1] t = Except.ok
      ((strip_Pt q t (strip_leading_zeros_keep1 q Q.reverse)).reverse, []) := by
  have hform : get_P q Q [1] t
      = (poly_div_loop q [1] ((strip_leading_zeros_keep1 q Q.reverse).length + 1)
          (strip_leading_zeros_keep1 q Q.reverse) []
        >>= fun x => Except.ok ((strip_Pt q t x.1).reverse,
              strip_all_zeros q x.2.reverse)) := rfl
  rw [hform,
    poly_div_by_one q hq (((strip_leading_zeros_keep1 q Q.reverse)).length + 1)
      (strip_leading_zeros_keep1 q Q.reverse) [] (by omega)]
  rfl

theorem stripped_head (q : Nat) (t n : Nat) (hn : 0 < n) (f : Polynomial (ZMod q)) :
    ((strip_Pt q t (strip_leading_zeros_keep1 q
        (((List.range n).map (fun (j : Nat) => f.coeff j)).reverse))).reverse).head?
      = some (f.coeff 0) := by
  rw [List.head?_reverse, strip_Pt_getLast?, strip_leading_getLast?,
    List.getLast?_reverse]
  cases n with
  | zero => omega
  | succ m =>
      rw [List.range_succ_eq_map]
      simp

theorem berlekamp_welch_honest (q : Nat) (hq : q.Prime) (t n : Nat)
    (f : Polynomial (ZMod q)) (hf : f.natDegree ≤ t) (hn : 2 * t + 1 ≤ n)
    (hqn : n < q) :
    berlekamp_welch q (honestShares q n f) t
      = Except.ok (some ((f.eval 0).val : Int)) := by
  haveI : Fact q.Prime := ⟨hq⟩
  haveI : NeZero q := ⟨Nat.pos_iff_ne_zero.mp hq.pos⟩
  have hform : berlekamp_welch q (honestShares q n f) t
      = (bw_loop q (honestShares q n f) t >>= fun x =>
          (get_P q (split_factors q x.1 x.2).1 (split_factors q x.1 x.2).2 t
            >>= fun PR =>
              if 0 < PR.2.length then Except.ok none
              else
                match PR.1 with
                | [] => Except.error (PyError.indexError "list index out of range")
                | p0 :: _ =>
                    Except.ok (some ((p0.val : Int) % (q : Int))))) := rfl
  have hbind1 : ∀ (a : List (ZMod q) × Nat)
      (k : List (ZMod q) × Nat → Except PyError (Option Int)),
      ((Except.ok a : Except PyError (List (ZMod q) × Nat)) >>= k) = k a :=
    fun a k => rfl
  have hbind2 : ∀ (a : List (ZMod q) × List (ZMod q))
      (k : List (ZMod q) × List (ZMod q) → Except PyError (Option Int)),
      ((Except.ok a : Except PyError (List (ZMod q) × List (ZMod q))) >>= k) = k a :=
    fun a k => rfl
  rw [hform, bw_loop_honest q hq t n f hf hn hqn t (le_refl t), hbind1]
  show (get_P q
      (split_factors q ((List.range n).map (fun (j : Nat) => f.coeff j)) 0).1
      (split_factors q ((List.range n).map (fun (j : Nat) => f.coeff j)) 0).2 t
    >>= fun PR =>
      if 0 < PR.2.length then Except.ok none
      else
        match PR.1 with
        | [] => Except.error (PyError.indexError "list index out of range")
        | p0 :: _ => Except.ok (some ((p0.val : Int) % (q : Int))))
    = Except.ok (some ((f.eval 0).val : Int))
  rw [split_factors_zero q ((List.range n).map (fun (j : Nat) => f.coeff j))]
  show (get_P q ((List.range n).map (fun (j : Nat) => f.coeff j)) [1] t
    >>= fun PR =>
      if 0 < PR.2.length then Except.ok none
      else
        match PR.1 with
        | [] => Except.error (PyError.indexError "list index out of range")
        | p0 :: _ => Except.ok (some ((p0.val : Int) % (q : Int))))
    = Except.ok (some ((f.eval 0).val : Int))
  rw [get_P_by_one q hq ((List.range n).map (fun (j : Nat) => f.coeff j)) t, hbind2]
  have hhead := stripped_head q t n (by omega) f
  rcases hP : (strip_Pt q t (strip_leading_zeros_keep1 q
      (((List.range n).map (fun (j : Nat) => f.coeff j)).reverse))).reverse
    with _ | ⟨p0, rest⟩
  · rw [hP] at hhead
    exact absurd hhead (by simp)
  · rw [hP] at hhead
    have hp0 : p0 = f.coeff 0 := by
      rw [List.head?_cons] at hhead
      exact Option.some.injEq _ _ ▸ hhead
    show Except.ok (some (((p0.val : Int)) % (q : Int)))
      = Except.ok (some ((f.eval 0).val : Int))
    rw [hp0, Int.emod_eq_of_lt (by positivity) (by exact_mod_cast ZMod.val_lt _),
      Polynomial.coeff_zero_eq_eval_zero]

theorem sort_by_fst_fix :
    ∀ l : List (Int × Int), l.Pairwise (fun p r => p.1 < r.1) → sort_by_fst l = l := by
  intro l
  induction l with
  | nil => intro _; rfl
  | cons a tail ih =>
      intro hp
      have htail := (List.pairwise_cons.mp hp).2
      have hhead := (List.pairwise_cons.mp hp).1
      show insert_by_fst a (sort_by_fst tail) = a :: tail
      rw [ih htail]
      cases tail with
      | nil => rfl
      | cons b rest =>
          have hab : a.1 < b.1 := hhead b (List.mem_cons_self b rest)
          show (if b.1 < a.1 then b :: insert_by_fst a rest else a :: b :: rest) = _
          rw [if_neg (by omega)]

/-- **C2** (amended: the honest case).  When all `n ≥ 2t+1` shares of a
degree-`≤ t` polynomial `f` over the prime field `ZMod q` (with `n < q`)
are present and correct, `shamir.recombine` in robust mode returns the true
secret `f(0)`: the Berlekamp-Welch decrement loop rejects every error bound
`th = t, …, 1` (the equation system never has a unique solution there,
since `(f·E, E)` solves it for every monic `E` of degree `th`, so partial
pivoting hits an all-zero column), solves the Vandermonde system at
`th = 0`, divides by the trivial error locator `E = [1]` with zero
remainder, and reads off `P[0] = f(0)`.  The claimed tolerance of up to `t`
corrupted shares does not hold (see the counterexample). -/
theorem robust_recombination_honest (q t n : Nat) (hq : q.Prime)
    (f : Polynomial (ZMod q)) (hf : f.natDegree ≤ t) (hn : 2 * t + 1 ≤ n)
    (hqn : n < q) :
    recombine ((List.range n).map (fun (i : Nat) =>
        ((i : Int) + 1, some (((f.eval ((i : ZMod q) + 1)).val : Int)))))
      t 0 q true
      = Except.ok (some ((f.eval 0).val : Int)) := by
  have hdef : recombine ((List.range n).map (fun (i : Nat) =>
        ((i : Int) + 1, some (((f.eval ((i : ZMod q) + 1)).val : Int)))))
      t 0 q true
      = berlekamp_welch q (sort_by_fst
          (((List.range n).map (fun (i : Nat) =>
            ((i : Int) + 1, some (((f.eval ((i : ZMod q) + 1)).val : Int))))).map
              (fun s => (s.1, s.2.getD 0)))) t := rfl
  have hmm : (((List.range n).map (fun (i : Nat) =>
        ((i : Int) + 1, some (((f.eval ((i : ZMod q) + 1)).val : Int))))).map
          (fun s => (s.1, s.2.getD 0))) = honestShares q n f := by
    rw [List.map_map]
    rfl
  have hpw : (honestShares q n f).Pairwise (fun p r => p.1 < r.1) := by
    unfold honestShares
    rw [List.pairwise_map]
    refine (List.pairwise_lt_range n).imp ?_
    intro i j hij
    show (i : Int) + 1 < (j : Int) + 1
    omega
  rw [hdef, hmm, sort_by_fst_fix (honestShares q n f) hpw]
  exact berlekamp_welch_honest q hq t n f hf hn hqn

/-- **C2** (counterexample to the claim as stated).  `t = 1`, `q = 5`: the
constant polynomial `f = 1` has degree `≤ t` and honest shares
`(1, f(1)) = (1, 1)` and `(2, f(2)) = (2, 1)`.  Corrupting the second share
to `3` leaves `n = 2 ≥ t + 1` shares of which at most `t = 1` are
corrupted, yet robust recombination returns `None` (the division remainder
is non-zero) instead of the true secret `f(0) = 1`: with only `t + 1`
shares, up to `t` corruptions are information-theoretically uncorrectable,
and the code signals failure rather than returning the secret. -/
theorem robust_recombination_counterexample :
    ((Polynomial.C (1 : ZMod 5)).natDegree ≤ 1
      ∧ (((Polynomial.C (1 : ZMod 5)).eval 1).val : Int) = 1
      ∧ (((Polynomial.C (1 : ZMod 5)).eval 2).val : Int) = 1
      ∧ (((Polynomial.C (1 : ZMod 5)).eval 0).val : Int) = 1)
    ∧ recombine [((1 : Int), some 1), ((2 : Int), some 3)] 1 0 5 true
        = Except.ok none := by
  refine ⟨⟨by simp, ?_, ?_, ?_⟩, ?_⟩
  · rw [Polynomial.eval_C]; rfl
  · rw [Polynomial.eval_C]; rfl
  · rw [Polynomial.eval_C]; rfl
  · rfl

/-- Witness for the amended C2 theorem at `q = 7`, `t = 1`, `n = 3`,
`f = 2` (constant): the three honest shares `(1, 2), (2, 2), (3, 2)`
recombine robustly to the secret `2`. -/
theorem robust_recombination_honest_witness :
    recombine [((1 : Int), some 2), ((2 : Int), some 2), ((3 : Int), some 2)]
      1 0 7 true = Except.ok (some 2) := by
  have h := robust_recombination_honest 7 1 3 (by norm_num)
    (Polynomial.C 2) (by simp) (by norm_num) (by norm_num)
  have hlist : (List.range 3).map (fun (i : Nat) =>
      ((i : Int) + 1, some ((((Polynomial.C 2).eval ((i : ZMod 7) + 1)).val : Int))))
      = [((1 : Int), some 2), ((2 : Int), some 2), ((3 : Int), some 2)] := by
    have h1 : (((2 : ZMod 7).val : Int)) = 2 := rfl
    simp [List.range_succ, Polynomial.eval_C, h1]
  have hval : ((((Polynomial.C 2).eval (0 : ZMod 7)).val : Int)) = 2 := by
    rw [Polynomial.eval_C]
    rfl
  rw [hlist, hval] at h
  exact h

end CoinParty
